import Mathlib

/-!
Verification development for the hunyuanvideo-foley data-preparation scripts
(`generate_model_comparison.py`, `replace_video_urls.py`, `generate_signed_urls.py`).

Python strings are modelled as `List Char` (`LC`); the filesystem as a partial map
from path to file content; the external `coscmd` signing tool as an oracle function
from remote path to an invocation outcome.  JSON lines are modelled by a small AST
(`JEntry`) covering the manifest schema: a top-level object whose values are strings,
integers, or one-level string/integer objects; `parseEntry`/`renderEntry` model
`json.loads`/`json.dumps(..., ensure_ascii=False)` on that fragment (escape handling
is limited to `\"`, `\\` and `\n`, and floats/booleans/arrays/deeper nesting are out
of the modelled fragment, as in the manifests this repository processes).
-/

abbrev LC := List Char

/-- Python `str.strip()` whitespace set (space, tab, newline, carriage return,
vertical tab, form feed). -/
def pyWsChar (c : Char) : Bool :=
  c = ' ' || c = '\t' || c = '\n' || c = '\r' || c = Char.ofNat 11 || c = Char.ofNat 12

/-- JSON inter-token whitespace accepted by `json.loads`. -/
def jsonWs (c : Char) : Bool :=
  c = ' ' || c = '\t' || c = '\n' || c = '\r'

/-- Python `s.strip()`: drop leading and trailing whitespace. -/
def pyStrip (l : LC) : LC :=
  ((l.dropWhile pyWsChar).reverse.dropWhile pyWsChar).reverse

/-- Python `s.split(sep)` for a single-character separator. -/
def splitOnChar (sep : Char) : LC → List LC
  | [] => [[]]
  | c :: t =>
    if c = sep then [] :: splitOnChar sep t
    else
      match splitOnChar sep t with
      | s :: ss => (c :: s) :: ss
      | [] => [[c]]

/-- `os.path.basename` on POSIX, equally Python `p.split('/')[-1]`:
the part after the last slash. -/
def basenameLC (p : LC) : LC :=
  (splitOnChar '/' p).getLastD []

/-- The scan of Python `s.replace(pat, sub)` by fuel recursion: each step
consumes at least one character of the remaining string (for nonempty `pat`), so
a fuel of `s.length` covers the whole scan.  Every non-overlapping,
leftmost-first occurrence of `pat` is replaced. -/
def replaceAllGo (pat sub : LC) : Nat → LC → LC
  | _, [] => []
  | 0, s => s
  | fuel + 1, c :: t =>
    if pat.isPrefixOf (c :: t) then sub ++ replaceAllGo pat sub fuel ((c :: t).drop pat.length)
    else c :: replaceAllGo pat sub fuel t

/-- Python `s.replace(pat, sub)`: replace every (non-overlapping, leftmost-first)
occurrence.  (An empty `pat` never arises in the modelled calls.) -/
def replaceAll (pat sub : LC) (s : LC) : LC :=
  if pat.isEmpty then s else replaceAllGo pat sub s.length s

/-- Python `s.split(pat, 1)` when `pat` occurs in `s`: the parts before and after
the first occurrence (`none` when `pat` does not occur). -/
def splitFirst (pat : LC) (s : LC) : Option (LC × LC) :=
  if pat.isPrefixOf s then some ([], s.drop pat.length)
  else
    match s with
    | [] => none
    | c :: t => (splitFirst pat t).map fun p => (c :: p.1, p.2)

/-- Everything after the first occurrence of `pat` in `s` (`s.split(pat, 1)[1]`). -/
def afterFirst (pat : LC) (s : LC) : Option LC :=
  (splitFirst pat s).map Prod.snd

/-- Decimal digits of `n`, most significant first (as emitted by `str`/`json.dumps`). -/
def natDigits (n : Nat) : LC :=
  if n < 10 then [Nat.digitChar n]
  else natDigits (n / 10) ++ [Nat.digitChar (n % 10)]
termination_by n
decreasing_by
  exact Nat.div_lt_self (by omega) (by omega)

def digitVal (c : Char) : Nat := c.toNat - '0'.toNat

/-- Accumulate a digit string into a number (the value of `int(s)` on an
all-digit string). -/
def digitsToNat (acc : Nat) : LC → Nat
  | [] => acc
  | c :: t => digitsToNat (acc * 10 + digitVal c) t

/-- Python `int(s)` on a string: surrounding whitespace is stripped, an optional
sign precedes a nonempty run of digits.  (Digit-group underscores accepted by
Python 3.6+ are not modelled; the repository's ids never contain them.  Only ASCII
digits are modelled.) -/
def pyIntStr? (s : LC) : Option Int :=
  match pyStrip s with
  | '-' :: ds => if ds ≠ [] ∧ ds.all Char.isDigit then some (-(digitsToNat 0 ds : Int)) else none
  | '+' :: ds => if ds ≠ [] ∧ ds.all Char.isDigit then some ((digitsToNat 0 ds : Int)) else none
  | ds => if ds ≠ [] ∧ ds.all Char.isDigit then some ((digitsToNat 0 ds : Int)) else none

/-- Python `s.isdigit()` restricted to ASCII digits (the repository's video ids are
ASCII). -/
def pyIsDigit (s : LC) : Bool :=
  !s.isEmpty && s.all Char.isDigit

/-- Python `s.lower()` (labels in this repository are ASCII). -/
def toLowerLC (s : LC) : LC := s.map Char.toLower

def intercalateLC (sep : LC) : List LC → LC
  | [] => []
  | [x] => x
  | x :: y :: t => x ++ sep ++ intercalateLC sep (y :: t)

/-! ## JSON-line model -/

/-- A primitive JSON value appearing in a manifest line: a string or an integer. -/
inductive JPrim where
  | str (s : LC)
  | num (n : Int)
deriving DecidableEq

/-- A top-level field value in a manifest line: a primitive, or a one-level object
of primitives (such as the `videos` mapping). -/
inductive JField where
  | prim (p : JPrim)
  | obj (fs : List (LC × JPrim))
deriving DecidableEq

/-- A parsed manifest line: a JSON object, as an ordered association list of fields
(like a Python `dict`, so keys are unique after parsing). -/
structure JEntry where
  fields : List (LC × JField)
deriving DecidableEq

/-- Python `d[k] = v` on an association list viewed as a `dict`: replace the value
at the first occurrence of `k`, keeping its position; append when absent. -/
def insertAssoc {β : Type} (l : List (LC × β)) (k : LC) (v : β) : List (LC × β) :=
  match l with
  | [] => [(k, v)]
  | (k', v') :: t => if k' = k then (k, v) :: t else (k', v') :: insertAssoc t k v

/-- Building a `dict` from parsed fields in order (later duplicate keys overwrite
earlier values in place, as `json.loads` does). -/
def collapseFields {β : Type} (l : List (LC × β)) : List (LC × β) :=
  l.foldl (fun acc kv => insertAssoc acc kv.1 kv.2) []

def escapeChar (c : Char) : LC :=
  if c = '"' then ['\\', '"']
  else if c = '\\' then ['\\', '\\']
  else if c = '\n' then ['\\', 'n']
  else [c]

/-- String-body escaping of `json.dumps(..., ensure_ascii=False)` on the modelled
character set. -/
def escape : LC → LC
  | [] => []
  | c :: t => escapeChar c ++ escape t

def renderInt (n : Int) : LC :=
  if n < 0 then '-' :: natDigits n.natAbs else natDigits n.toNat

def renderPrim : JPrim → LC
  | .str s => '"' :: (escape s ++ ['"'])
  | .num n => renderInt n

/-- `json.dumps` field list with the default separators `", "` and `": "`. -/
def renderInnerFields : List (LC × JPrim) → LC
  | [] => []
  | [(k, v)] => renderPrim (.str k) ++ ':' :: ' ' :: renderPrim v
  | (k, v) :: f :: t =>
      renderPrim (.str k) ++ ':' :: ' ' :: renderPrim v ++ ',' :: ' ' :: renderInnerFields (f :: t)

def renderInnerObj (fs : List (LC × JPrim)) : LC :=
  '{' :: (renderInnerFields fs ++ ['}'])

def renderField : JField → LC
  | .prim p => renderPrim p
  | .obj fs => renderInnerObj fs

def renderTopFields : List (LC × JField) → LC
  | [] => []
  | [(k, v)] => renderPrim (.str k) ++ ':' :: ' ' :: renderField v
  | (k, v) :: f :: t =>
      renderPrim (.str k) ++ ':' :: ' ' :: renderField v ++ ',' :: ' ' :: renderTopFields (f :: t)

/-- `json.dumps(data, ensure_ascii=False)` of a manifest line. -/
def renderEntry (e : JEntry) : LC :=
  '{' :: (renderTopFields e.fields ++ ['}'])

def unescapeChar (c : Char) : Option Char :=
  if c = '"' then some '"'
  else if c = '\\' then some '\\'
  else if c = 'n' then some '\n'
  else none

/-- Parse a JSON string body after the opening quote; returns the content and the
rest after the closing quote. -/
def parseStrBody : LC → Option (LC × LC)
  | [] => none
  | c :: rest =>
    if c = '"' then some ([], rest)
    else if c = '\\' then
      match rest with
      | [] => none
      | e :: rest' =>
        match unescapeChar e, parseStrBody rest' with
        | some u, some (s, r) => some (u :: s, r)
        | _, _ => none
    else
      match parseStrBody rest with
      | some (s, r) => some (c :: s, r)
      | none => none

def parseNatTok (s : LC) : Option (Nat × LC) :=
  let ds := s.takeWhile Char.isDigit
  if ds.isEmpty then none
  else some (digitsToNat 0 ds, s.dropWhile Char.isDigit)

def parsePrim (s : LC) : Option (JPrim × LC) :=
  match s with
  | [] => none
  | c :: rest =>
    if c = '"' then (parseStrBody rest).map fun p => (JPrim.str p.1, p.2)
    else if c = '-' then (parseNatTok rest).map fun p => (JPrim.num (-(p.1 : Int)), p.2)
    else (parseNatTok (c :: rest)).map fun p => (JPrim.num ((p.1 : Int)), p.2)

/-- Parse a nonempty `", "`-separated field list of primitives up to and including
the closing brace. -/
def parseInnerFields : Nat → LC → Option (List (LC × JPrim) × LC)
  | 0, _ => none
  | fuel + 1, s =>
    match s with
    | [] => none
    | c :: rest =>
      if c = '"' then
        match parseStrBody rest with
        | none => none
        | some (k, r1) =>
          match r1.dropWhile jsonWs with
          | [] => none
          | c2 :: r3 =>
            if c2 = ':' then
              match parsePrim (r3.dropWhile jsonWs) with
              | none => none
              | some (v, r5) =>
                match r5.dropWhile jsonWs with
                | [] => none
                | c3 :: r7 =>
                  if c3 = ',' then
                    match parseInnerFields fuel (r7.dropWhile jsonWs) with
                    | some (fs, r8) => some ((k, v) :: fs, r8)
                    | none => none
                  else if c3 = '}' then some ([(k, v)], r7)
                  else none
            else none
      else none

/-- Parse a one-level JSON object of primitives. -/
def parseInnerObj (s : LC) : Option (List (LC × JPrim) × LC) :=
  match s with
  | [] => none
  | c :: rest =>
    if c = '{' then
      match rest.dropWhile jsonWs with
      | [] => none
      | c2 :: r2 =>
        if c2 = '}' then some ([], r2)
        else (parseInnerFields ((c2 :: r2).length + 1) (c2 :: r2)).map
          fun p => (collapseFields p.1, p.2)
    else none

def parseTopField (s : LC) : Option (JField × LC) :=
  match s with
  | [] => none
  | c :: rest =>
    if c = '{' then (parseInnerObj (c :: rest)).map fun p => (JField.obj p.1, p.2)
    else (parsePrim (c :: rest)).map fun p => (JField.prim p.1, p.2)

def parseTopFields : Nat → LC → Option (List (LC × JField) × LC)
  | 0, _ => none
  | fuel + 1, s =>
    match s with
    | [] => none
    | c :: rest =>
      if c = '"' then
        match parseStrBody rest with
        | none => none
        | some (k, r1) =>
          match r1.dropWhile jsonWs with
          | [] => none
          | c2 :: r3 =>
            if c2 = ':' then
              match parseTopField (r3.dropWhile jsonWs) with
              | none => none
              | some (v, r5) =>
                match r5.dropWhile jsonWs with
                | [] => none
                | c3 :: r7 =>
                  if c3 = ',' then
                    match parseTopFields fuel (r7.dropWhile jsonWs) with
                    | some (fs, r8) => some ((k, v) :: fs, r8)
                    | none => none
                  else if c3 = '}' then some ([(k, v)], r7)
                  else none
            else none
      else none

/-- `json.loads` of one manifest line, on the modelled fragment: a top-level object
whose values are strings, integers, or one-level objects of those. -/
def parseEntry (s : LC) : Option JEntry :=
  match s.dropWhile jsonWs with
  | [] => none
  | c :: rest =>
    if c = '{' then
      let body :=
        match rest.dropWhile jsonWs with
        | [] => none
        | c2 :: r2 =>
          if c2 = '}' then some (([] : List (LC × JField)), r2)
          else parseTopFields ((c2 :: r2).length + 1) (c2 :: r2)
      match body with
      | some (fs, r) =>
        if (r.dropWhile jsonWs).isEmpty then some ⟨collapseFields fs⟩ else none
      | none => none
    else none

/-! ## Filesystem and external-tool model -/

/-- The filesystem: a partial map from path to file content. -/
abbrev FS := LC → Option LC

def setFS (fs : FS) (p : LC) (c : LC) : FS :=
  fun q => if q = p then some c else fs q

/-- File content as the list of lines seen by Python's line iteration
(the final newline yields a trailing empty line, which the scripts skip). -/
def splitLines (c : LC) : List LC := splitOnChar '\n' c

/-- Writing lines back, each followed by a newline. -/
def joinLines (ls : List LC) : LC := ls.foldr (fun l acc => l ++ '\n' :: acc) []

/-- Outcome of one `coscmd signurl` invocation (`subprocess.run(..., check=True,
timeout=60)`): captured stdout on exit 0, or one of the three caught exceptions. -/
inductive SignOut where
  | ok (stdout : LC)
  | timeout
  | err
  | missing
deriving DecidableEq

/-- The external `coscmd` tool: whether `coscmd --version` succeeds, and the outcome
of signing each remote path. -/
structure CosEnv where
  available : Bool
  sign : LC → SignOut

/-! ## replace_video_urls.py -/

def UPLOAD_LOG_FILE : LC := "upload_result.log".data

def VIDEO_URL_MAPPING_FILE : LC := "video_url_mapping.json".data

def JSONL_FILES : List LC :=
  ["src/assets/demo_videos.jsonl".data,
   "src/assets/moviegen_benchmark.jsonl".data,
   "src/assets/model_comparison_videos.jsonl".data]

def defaultBucket : LC := "texttoaudio-train-1258344703".data

/-- `build_cos_public_url`: the fixed bucket-and-region template applied to a
remote path. -/
def build_cos_public_url (cos_path : LC) (bucket_name : LC) : LC :=
  "https://".data ++ bucket_name ++ ".cos.".data ++ "ap-shanghai".data
    ++ ".myqcloud.com/".data ++ cos_path

/-- Post-processing of the signing tool's stdout:
`result.stdout.decode('utf-8').strip().split('\n')[0]`, then unwrapping a
`b'...'` quoting artifact. -/
def postprocessSigned (out : LC) : LC :=
  let url := (pyStrip out).takeWhile (fun c => c ≠ '\n')
  if "b'".data.isPrefixOf url && "'".data.isSuffixOf url then (url.drop 2).dropLast
  else url

/-- `get_cos_signed_url` of replace_video_urls.py: try the signing tool; on
`TimeoutExpired`, `CalledProcessError` or `FileNotFoundError` fall back to the
constructed public URL. -/
def get_cos_signed_url (env : CosEnv) (remote_file_path : LC) : LC :=
  match env.sign remote_file_path with
  | .ok out => postprocessSigned out
  | _ => build_cos_public_url remote_file_path defaultBucket

/-- Simplified model of the upload-log line match
`re.search(r'Upload\s+(.+?)\s+=>\s+cos://[^/]+/(.+)', line)`: the first `Upload`
and first `=>` occurrences are taken to delimit the match, as in coscmd logs.
No claim in this development depends on this line-level behaviour, only on the
missing-file branch of `parse_upload_log`. -/
def matchUploadLine (line : LC) : Option (LC × LC) := do
  let r1 ← afterFirst "Upload".data line
  let startsWs : Bool := match r1 with | c :: _ => pyWsChar c | [] => false
  if startsWs then
    let (before, after) ← splitFirst "=>".data (r1.dropWhile pyWsChar)
    let local_path := (before.reverse.dropWhile pyWsChar).reverse
    if !local_path.isEmpty && before.length > local_path.length then
      let r3 ← afterFirst "cos://".data (after.dropWhile pyWsChar)
      let bucket := r3.takeWhile (fun c => c ≠ '/')
      if !bucket.isEmpty then
        match r3.dropWhile (fun c => c ≠ '/') with
        | '/' :: cos_path => if cos_path.isEmpty then none else some (local_path, cos_path)
        | _ => none
      else none
    else none
  else none

/-- `parse_upload_log`: an empty mapping when the log file is absent, else the
filename → remote-path dict accumulated over the matching lines. -/
def parse_upload_log (fs : FS) : List (LC × LC) :=
  match fs UPLOAD_LOG_FILE with
  | none => []
  | some content =>
    (splitLines content).foldl
      (fun acc line =>
        match matchUploadLine line with
        | some (lp, cp) => insertAssoc acc (basenameLC lp) cp
        | none => acc)
      []

/-- `generate_video_url_mapping`: resolve a URL for every `.mp4`-suffixed filename;
an entry is kept only when the resolved URL is truthy (nonempty). -/
def generate_video_url_mapping (env : CosEnv) (file_mapping : List (LC × LC)) :
    List (LC × LC) :=
  file_mapping.foldl
    (fun acc kv =>
      if ".mp4".data.isSuffixOf kv.1 then
        let signed_url := get_cos_signed_url env kv.2
        if signed_url.isEmpty then acc else insertAssoc acc kv.1 signed_url
      else acc)
    []

def videosKey : LC := "videos".data

/-- The per-pair body of the `videos` loop: replace a path whose basename is a
mapped filename.  A non-string path raises `TypeError` in `os.path.basename`,
modelled as `Except.error`. -/
def updateVideos (m : List (LC × LC)) : List (LC × JPrim) → Except Unit (List (LC × JPrim) × Bool)
  | [] => .ok ([], false)
  | (k, JPrim.str s) :: rest => do
    let (rest', b) ← updateVideos m rest
    match List.lookup (basenameLC s) m with
    | some u => .ok ((k, JPrim.str u) :: rest', true)
    | none => .ok ((k, JPrim.str s) :: rest', b)
  | (_, JPrim.num _) :: _ => .error ()

/-- Replace the value at the first occurrence of `key` (Python dict assignment on
an existing key keeps its position). -/
def setField (fields : List (LC × JField)) (key : LC) (v : JField) : List (LC × JField) :=
  match fields with
  | [] => []
  | (k, w) :: t => if k = key then (k, v) :: t else (k, w) :: setField t key v

/-- Processing of one parsed line: if a `videos` field is present its paths are
rewritten; a `videos` value that is not an object raises (`AttributeError` on
`.items()`), modelled as `Except.error`.  The boolean is the line's
`line_updated` flag. -/
def updateEntry (m : List (LC × LC)) (e : JEntry) : Except Unit (JEntry × Bool) :=
  match List.lookup videosKey e.fields with
  | none => .ok (e, false)
  | some (JField.prim _) => .error ()
  | some (JField.obj vs) => do
    let (vs', b) ← updateVideos m vs
    .ok (⟨setField e.fields videosKey (JField.obj vs')⟩, b)

/-- Whether a parsed line would be counted as updated: some `videos` path has a
basename present in the mapping. -/
def videosHit (m : List (LC × LC)) (vs : List (LC × JPrim)) : Bool :=
  vs.any fun kv =>
    match kv.2 with
    | .str s => (List.lookup (basenameLC s) m).isSome
    | .num _ => false

def entryHit (m : List (LC × LC)) (e : JEntry) : Bool :=
  match List.lookup videosKey e.fields with
  | some (JField.obj vs) => videosHit m vs
  | _ => false

/-- The body of `update_jsonl_file` on the list of lines: strip each line, skip
blank lines, pass unparseable lines through (stripped), rewrite parsed lines and
re-serialize them, and count the lines whose `line_updated` flag was set.  An
uncaught exception (non-string path, non-object `videos`) aborts the run. -/
def update_jsonl_lines (m : List (LC × LC)) : List LC → Except Unit (List LC × Nat)
  | [] => .ok ([], 0)
  | l :: rest =>
    let t := pyStrip l
    if t.isEmpty then update_jsonl_lines m rest
    else
      match parseEntry t with
      | none => do
        let (out, n) ← update_jsonl_lines m rest
        .ok (t :: out, n)
      | some e => do
        let (e', b) ← updateEntry m e
        let (out, n) ← update_jsonl_lines m rest
        .ok (renderEntry e' :: out, n + (if b then 1 else 0))

/-- `update_jsonl_file` on the filesystem: a missing file is skipped with count 0;
otherwise the lines are processed and the file rewritten. -/
def update_jsonl_file (m : List (LC × LC)) (fs : FS) (jsonl_file : LC) :
    Except Unit (FS × Nat) :=
  match fs jsonl_file with
  | none => .ok (fs, 0)
  | some content => do
    let (out, n) ← update_jsonl_lines m (splitLines content)
    .ok (setFS fs jsonl_file (joinLines out), n)

/-- `create_backup`: copy `file_path` to `file_path + ".backup"` when it exists. -/
def create_backup (fs : FS) (file_path : LC) : FS :=
  match fs file_path with
  | some c => setFS fs (file_path ++ ".backup".data) c
  | none => fs

/-- `json.dump(mapping, f, ensure_ascii=False, indent=2)` for a string-to-string
mapping. -/
def renderUrlMappingIndent (m : List (LC × LC)) : LC :=
  match m with
  | [] => "\x7b\x7d".data
  | _ =>
    '{' :: '\n' ::
      (intercalateLC ",\n".data
        (m.map fun kv =>
          "  ".data ++ renderPrim (.str kv.1) ++ ": ".data ++ renderPrim (.str kv.2)))
      ++ '\n' :: ['}']

/-- `main()` of replace_video_urls.py. -/
def replace_main (env : CosEnv) (fs : FS) : Except Unit FS :=
  let file_mapping := parse_upload_log fs
  if file_mapping.isEmpty then .ok fs
  else
    let url_mapping := generate_video_url_mapping env file_mapping
    if url_mapping.isEmpty then .ok fs
    else do
      let st ← JSONL_FILES.foldlM
        (fun (st : FS × Nat) f => do
          let fs1 := create_backup st.1 f
          let (fs2, n) ← update_jsonl_file url_mapping fs1 f
          .ok (fs2, st.2 + n))
        (fs, 0)
      .ok (setFS st.1 VIDEO_URL_MAPPING_FILE (renderUrlMappingIndent url_mapping))

/-! ## generate_signed_urls.py -/

def SIGNED_URL_MAPPING_FILE : LC := "signed_video_url_mapping.json".data

def cosMarker : LC := "/hunyuanvideo-foley_demo/".data

def cosMarkerDir : LC := "hunyuanvideo-foley_demo/".data

/-- `get_cos_signed_url` of generate_signed_urls.py: no public-URL fallback; any
of the three failures yields `None`. -/
def ref_get_cos_signed_url (env : CosEnv) (cos_path : LC) : Option LC :=
  match env.sign cos_path with
  | .ok out => some (postprocessSigned out)
  | _ => none

/-- The body of `extract_cos_paths_from_mapping` on an already-loaded mapping:
keep each URL containing the marker, re-prefixing everything after its first
occurrence with the marker's directory name; other URLs are skipped. -/
def extract_cos_paths_from_mapping (url_mapping : List (LC × LC)) : List (LC × LC) :=
  url_mapping.foldl
    (fun acc kv =>
      match afterFirst cosMarker kv.2 with
      | some rest => insertAssoc acc kv.1 (cosMarkerDir ++ rest)
      | none => acc)
    []

/-- `json.load` of a mapping file on the modelled fragment: a single JSON object
of primitives covering the whole file. -/
def parseJsonDict (c : LC) : Option (List (LC × JPrim)) :=
  match parseInnerObj (c.dropWhile jsonWs) with
  | some (fs, r) => if (r.dropWhile jsonWs).isEmpty then some fs else none
  | none => none

/-- `extract_cos_paths_from_mapping` including its file access: an absent mapping
file yields the empty mapping; unparseable JSON raises out of `json.load`;
a non-string URL value raises `TypeError` in the `in` test. -/
def extract_cos_paths_fs (fs : FS) : Except Unit (List (LC × LC)) :=
  match fs VIDEO_URL_MAPPING_FILE with
  | none => .ok []
  | some content =>
    match parseJsonDict content with
    | none => .error ()
    | some m =>
      m.foldlM
        (fun acc kv =>
          match kv.2 with
          | .str url =>
            .ok (match afterFirst cosMarker url with
                 | some rest => insertAssoc acc kv.1 (cosMarkerDir ++ rest)
                 | none => acc)
          | .num _ => .error ())
        []

/-- `generate_signed_urls`: sign each path; falsy results (a failure, or an empty
string) are skipped with a warning. -/
def generate_signed_urls (env : CosEnv) (cos_paths : List (LC × LC)) : List (LC × LC) :=
  cos_paths.foldl
    (fun acc kv =>
      match ref_get_cos_signed_url env kv.2 with
      | some u => if u.isEmpty then acc else insertAssoc acc kv.1 u
      | none => acc)
    []

/-- `update_jsonl_files_with_signed_urls`: for each existing manifest in the fixed
list, call `create_backup` on `jsonl_file + ".signed"` and then rewrite the
manifest. -/
def update_jsonl_files_with_signed_urls (signed_urls : List (LC × LC)) (fs : FS) :
    Except Unit FS :=
  JSONL_FILES.foldlM
    (fun fs f =>
      if (fs f).isSome then do
        let fs1 := create_backup fs (f ++ ".signed".data)
        let (fs2, _) ← update_jsonl_file signed_urls fs1 f
        .ok fs2
      else .ok fs)
    fs

/-- `main()` of generate_signed_urls.py. -/
def signed_main (env : CosEnv) (fs : FS) : Except Unit FS :=
  if !env.available then .ok fs
  else do
    let cos_paths ← extract_cos_paths_fs fs
    if cos_paths.isEmpty then .ok fs
    else
      let signed_urls := generate_signed_urls env cos_paths
      if signed_urls.isEmpty then .ok fs
      else do
        let fs1 := setFS fs SIGNED_URL_MAPPING_FILE (renderUrlMappingIndent signed_urls)
        update_jsonl_files_with_signed_urls signed_urls fs1

/-! ## generate_model_comparison.py -/

/-- One row of the benchmark CSV as seen through `csv.DictReader`: the `video` and
`SoundCaption` columns (other columns are unused; a missing column reads as `""`
through `row.get(..., '')`). -/
structure CsvRow where
  video : LC
  soundCaption : LC
deriving DecidableEq

def oursMarker : LC := "Ours__128d_200k__".data

def vauraMarker : LC := "V_AURA_".data

/-- Python `filename.replace('.mp4', '')`: every occurrence removed, not only a
trailing extension. -/
def stripMp4All (s : LC) : LC := replaceAll ".mp4".data [] s

/-- The per-filename branch structure of `extract_video_ids_and_models`: the
`(model, id)` pair contributed by one scanned filename, `none` when the filename
is skipped.  (A glob result is never empty, so the `[]` case is unreachable; the
final `none` branch mirrors the dead `len(parts) < 2` fall-through.) -/
def extract_pair (filename : LC) : Option (LC × LC) :=
  match filename with
  | [] => none
  | c :: _ =>
    if c.isDigit && filename.contains '-' then none
    else if filename.contains '_' then
      if oursMarker.isPrefixOf filename then
        some ("HIFI-Foley".data, stripMp4All (replaceAll oursMarker [] filename))
      else
        let parts := splitOnChar '_' (stripMp4All filename)
        if parts.length ≥ 2 then
          if vauraMarker.isPrefixOf filename then some ("V_AURA".data, parts.getLastD [])
          else some (parts.headD [], parts.getLastD [])
        else none
    else none

/-- Insert one `(model, path)` pair into the nested `video_groups` dict. -/
def insertGroup (groups : List (LC × List (LC × LC))) (vid model path : LC) :
    List (LC × List (LC × LC)) :=
  match groups with
  | [] => [(vid, [(model, path)])]
  | (v, ms) :: t =>
    if v = vid then (v, insertAssoc ms model path) :: t
    else (v, ms) :: insertGroup t vid model path

/-- `extract_video_ids_and_models` over a directory scan result: group the
contributed pairs by id, mapping each model to `videos/demo_show/<filename>`. -/
def extract_video_ids_and_models (video_files : List LC) : List (LC × List (LC × LC)) :=
  video_files.foldl
    (fun groups fn =>
      match extract_pair fn with
      | none => groups
      | some mv => insertGroup groups mv.2 mv.1 ("videos/demo_show/".data ++ fn))
    []

/-- The loop body of `get_prompt_from_csv` over the rows from the fixed offset on.
`int(...)` on a non-integer filename or id raises `ValueError`, modelled as
`Except.error`. -/
def get_prompt_go (vid : LC) : List CsvRow → Except Unit LC
  | [] => .ok []
  | row :: rest =>
    if row.video.isEmpty then get_prompt_go vid rest
    else
      let filename := (splitOnChar '/' row.video).getLastD []
      match pyIntStr? (stripMp4All filename) with
      | none => .error ()
      | some n =>
        match pyIntStr? vid with
        | none => .error ()
        | some v => if n = v then .ok row.soundCaption else get_prompt_go vid rest

/-- `get_prompt_from_csv`: scan rows from index 64 on; first numeric match wins;
no match yields `""` with a printed warning. -/
def get_prompt_from_csv (csv_data : List CsvRow) (video_id : LC) : Except Unit LC :=
  get_prompt_go video_id (csv_data.drop 64)

/-- The fixed `model_mapping` table. -/
def model_mapping : List (LC × LC) :=
  [("HIFI-Foley".data, "hifi-foley".data),
   ("FoleyCrafter".data, "foleycrafter".data),
   ("Frieren".data, "frieren".data),
   ("MMAudio".data, "mmaudio".data),
   ("ThinkSound".data, "thinksound".data),
   ("V_AURA".data, "v-aura".data)]

/-- `model_mapping.get(model_name, model_name.lower())`. -/
def mapModelKey (model_name : LC) : LC :=
  (List.lookup model_name model_mapping).getD (toLowerLC model_name)

/-- Sort key test of `sorted(..., key=lambda x: int(x) if x.isdigit() else float('inf'))`
as a boolean comparison: all-digit ids by numeric value, all other ids as `inf`. -/
def idLe (a b : LC) : Bool :=
  match (if pyIsDigit a then some (digitsToNat 0 a) else none),
        (if pyIsDigit b then some (digitsToNat 0 b) else none) with
  | some x, some y => x ≤ y
  | some _, none => true
  | none, some _ => false
  | none, none => true

/-- One output record of the Manifest Builder. -/
structure CmpEntry where
  sequence_id : Nat
  video_id : LC
  prompt : LC
  videos : List (LC × LC)
deriving DecidableEq

/-- The entry-construction loop over the sorted ids (`enumerate` starts `idx` at 0;
`sequence_id` is `idx + 1`). -/
def buildEntries (csv_data : List CsvRow) (groups : List (LC × List (LC × LC))) :
    Nat → List LC → Except Unit (List CmpEntry)
  | _, [] => .ok []
  | idx, vid :: rest => do
    let prompt ← get_prompt_from_csv csv_data vid
    let models := (List.lookup vid groups).getD []
    let videos := models.foldl (fun acc mv => insertAssoc acc (mapModelKey mv.1) mv.2) []
    let es ← buildEntries csv_data groups (idx + 1) rest
    .ok (⟨idx + 1, vid, prompt, videos⟩ :: es)

/-- `generate_model_comparison_jsonl`.  Inputs: the CSV (`none` when
`public/test_aries_tv2a_sound.csv` is absent, in which case `open` raises
`FileNotFoundError`) and the `*.mp4` names from the directory scan (a missing
video directory globs to `[]` without raising). -/
def generate_model_comparison_jsonl (csv : Option (List CsvRow)) (video_files : List LC) :
    Except Unit (List CmpEntry) :=
  match csv with
  | none => .error ()
  | some csv_data =>
    let groups := extract_video_ids_and_models video_files
    let sorted_video_ids := (groups.map Prod.fst).mergeSort idLe
    buildEntries csv_data groups 0 sorted_video_ids

/-! ## Claim-side policy formulations and concrete inputs -/

/-- One trailing `.mp4` extension removed — the literal reading of
"extension stripped" in the documented filename policy. -/
def stripExtOnce (s : LC) : LC :=
  if ".mp4".data.isSuffixOf s then s.take (s.length - 4) else s

/-- The documented filename-parsing policy read with "extension stripped" as
removal of one trailing `.mp4` (the claim's wording). -/
def claimPolicyPair (filename : LC) : Option (LC × LC) :=
  match filename with
  | [] => none
  | c :: _ =>
    if c.isDigit && filename.contains '-' then none
    else if oursMarker.isPrefixOf filename then
      some ("HIFI-Foley".data, stripExtOnce (filename.drop oursMarker.length))
    else if vauraMarker.isPrefixOf filename then
      some ("V_AURA".data, (splitOnChar '_' (stripExtOnce filename)).getLastD [])
    else if (stripExtOnce filename).contains '_' then
      some ((splitOnChar '_' (stripExtOnce filename)).headD [],
            (splitOnChar '_' (stripExtOnce filename)).getLastD [])
    else none

/-- The documented filename-parsing policy, amended to the code's actual
`.mp4`-handling: every occurrence of the literal `.mp4` (and of the
proposed-model marker) is removed by global replacement, not only a trailing
extension.  Stated in the spec's bullet order, independently of the code's
nesting. -/
def specPolicyPair (filename : LC) : Option (LC × LC) :=
  match filename with
  | [] => none
  | c :: _ =>
    if c.isDigit && filename.contains '-' then none
    else if oursMarker.isPrefixOf filename then
      some ("HIFI-Foley".data, stripMp4All (replaceAll oursMarker [] filename))
    else if vauraMarker.isPrefixOf filename then
      some ("V_AURA".data, (splitOnChar '_' (stripMp4All filename)).getLastD [])
    else if (stripMp4All filename).contains '_' then
      some ((splitOnChar '_' (stripMp4All filename)).headD [],
            (splitOnChar '_' (stripMp4All filename)).getLastD [])
    else none

/-- A filesystem containing nothing at all. -/
def emptyFS : FS := fun _ => none

/-- An environment whose signing tool is installed but times out on every path. -/
def envTimeoutAll : CosEnv := ⟨true, fun _ => .timeout⟩

/-- An environment whose signing tool exits 0 with empty stdout on every path. -/
def envOkEmpty : CosEnv := ⟨true, fun _ => .ok []⟩

/-- A filesystem holding exactly one manifest, the first of the fixed list. -/
def c1fs : FS :=
  fun p =>
    if p = "src/assets/demo_videos.jsonl".data
    then some "\x7b\"videos\": \x7b\"x\": \"a.mp4\"\x7d\x7d\n".data
    else none

def c1map : List (LC × LC) := [("a.mp4".data, "URL".data)]

def c2map : List (LC × LC) :=
  [("a.mp4".data, "x/b.mp4".data), ("b.mp4".data, "y".data)]

def c2wmap : List (LC × LC) :=
  [("a.mp4".data, "https://host/demo/a.mp4".data)]

def blankCsvRow : CsvRow := ⟨[], []⟩

/-- 64 skipped leading rows, then a row whose video filename is numeric. -/
def c4csvGood : List CsvRow :=
  List.replicate 64 blankCsvRow
    ++ [⟨"MovieGenAudioBenchSfx/video_with_audio/5.mp4".data, "dog barking".data⟩]

/-- 64 skipped leading rows, then a row whose video filename is not numeric. -/
def c4csvBad : List CsvRow :=
  List.replicate 64 blankCsvRow ++ [⟨"x/abc.mp4".data, "zzz".data⟩]

/-- A stored mapping whose single URL is a public URL built from a marker-prefixed
path. -/
def c9mapping : List (LC × LC) :=
  [("a.mp4".data,
    build_cos_public_url ("hunyuanvideo-foley_demo/demo_show/a.mp4".data) defaultBucket)]

/-- Whether a signing invocation succeeded (`subprocess.run` with `check=True`
returned instead of raising). -/
def SignOut.isOk : SignOut → Bool
  | .ok _ => true
  | _ => false

/-- The first manifest path of the fixed list. -/
def demoFile : LC := "src/assets/demo_videos.jsonl".data

/-- A filesystem holding one manifest whose single line has one `videos` path. -/
def c2fs : FS :=
  fun p =>
    if p = demoFile
    then some "\x7b\"videos\": \x7b\"x\": \"a.mp4\"\x7d\x7d".data
    else none

/-- An upload mapping with one `.mp4` name and one non-`.mp4` name. -/
def c10fm : List (LC × LC) := [("a.mp4".data, "p".data), ("b.txt".data, "q".data)]

/-- The host part of the public-URL template, up to and excluding the slash that
separates it from the object key. -/
def hostPrefix : LC :=
  "https://texttoaudio-train-1258344703.cos.ap-shanghai.myqcloud.com".data

/-- Well-formedness produced by `json.loads`: field keys are unique, at the top
level and inside every one-level object value. -/
def EntryWf (e : JEntry) : Prop :=
  (e.fields.map Prod.fst).Nodup ∧
    ∀ k vs, (k, JField.obj vs) ∈ e.fields → (vs.map Prod.fst).Nodup

/-- A mapping is replacement-stable when every mapped value, read back through the
basename extraction, maps to itself if it maps to anything.  This holds of the URL
mappings the Resolver produces: a public URL's basename is the original filename
(mapping to that same URL), and a signed URL's basename carries the query string
and is no mapped filename at all. -/
def UrlMapStable (m : List (LC × LC)) : Prop :=
  ∀ k v, (k, v) ∈ m → ∀ u, List.lookup (basenameLC v) m = some u → u = v

/-- Whether one raw line would be counted by the update pass: it parses and some
`videos` path has a mapped basename. -/
def lineHit (m : List (LC × LC)) (l : LC) : Bool :=
  match parseEntry (pyStrip l) with
  | some e => entryHit m e
  | none => false

/-- A line at which a second update pass is the identity: it is already stripped,
is nonempty, and either fails to parse or parses to an entry the update maps to
itself. -/
def LineStable (m : List (LC × LC)) (l : LC) : Prop :=
  pyStrip l = l ∧ l ≠ [] ∧
    (parseEntry l = none ∨
      ∃ e b, parseEntry l = some e ∧ renderEntry e = l ∧ updateEntry m e = .ok (e, b))

/-! ## Lemmas: whitespace stripping -/

theorem dropWhile_head?_false {p : Char → Bool} {l : LC} {c : Char}
    (h : (l.dropWhile p).head? = some c) : p c = false := by
  induction l with
  | nil => simp at h
  | cons a t ih =>
    by_cases hp : p a
    · rw [List.dropWhile_cons_of_pos hp] at h
      exact ih h
    · rw [List.dropWhile_cons_of_neg hp] at h
      simp only [List.head?_cons, Option.some.injEq] at h
      subst h
      exact Bool.not_eq_true _ ▸ (by simpa using hp)

theorem dropWhile_eq_self_of_head? {p : Char → Bool} {l : LC}
    (h : ∀ c, l.head? = some c → p c = false) : l.dropWhile p = l := by
  cases l with
  | nil => rfl
  | cons a t =>
    rw [List.dropWhile_cons_of_neg]
    simp [h a rfl]

theorem dropWhile_of_takeWhile_nil {p : Char → Bool} {l : LC}
    (h : l.takeWhile p = []) : l.dropWhile p = l := by
  have := List.takeWhile_append_dropWhile p l
  rw [h] at this
  simpa using this

theorem getLast?_of_suffix {l₁ l₂ : LC} (h : l₁ <:+ l₂) (hne : l₁ ≠ []) :
    l₁.getLast? = l₂.getLast? := by
  obtain ⟨t, rfl⟩ := h
  rw [List.getLast?_append]
  cases hl : l₁.getLast? with
  | none => exact absurd (List.getLast?_eq_none_iff.mp hl) hne
  | some c => rfl

theorem pyStrip_head?_false {l : LC} {c : Char} (h : (pyStrip l).head? = some c) :
    pyWsChar c = false := by
  unfold pyStrip at h
  rw [List.head?_reverse] at h
  have hsuf : ((l.dropWhile pyWsChar).reverse.dropWhile pyWsChar) <:+
      (l.dropWhile pyWsChar).reverse := List.dropWhile_suffix _
  have hne : ((l.dropWhile pyWsChar).reverse.dropWhile pyWsChar) ≠ [] := by
    intro e
    rw [e] at h
    simp at h
  rw [getLast?_of_suffix hsuf hne, List.getLast?_reverse] at h
  exact dropWhile_head?_false h

theorem pyStrip_getLast?_false {l : LC} {c : Char} (h : (pyStrip l).getLast? = some c) :
    pyWsChar c = false := by
  unfold pyStrip at h
  rw [List.getLast?_reverse] at h
  exact dropWhile_head?_false h

theorem pyStrip_eq_self {l : LC}
    (h1 : ∀ c, l.head? = some c → pyWsChar c = false)
    (h2 : ∀ c, l.getLast? = some c → pyWsChar c = false) : pyStrip l = l := by
  unfold pyStrip
  rw [dropWhile_eq_self_of_head? h1]
  rw [dropWhile_eq_self_of_head? (fun c hc => h2 c (List.head?_reverse l ▸ hc))]
  exact List.reverse_reverse l

theorem pyStrip_idem (l : LC) : pyStrip (pyStrip l) = pyStrip l :=
  pyStrip_eq_self (fun _ h => pyStrip_head?_false h) (fun _ h => pyStrip_getLast?_false h)

theorem pyStrip_renderEntry (e : JEntry) : pyStrip (renderEntry e) = renderEntry e := by
  apply pyStrip_eq_self
  · intro c h
    rw [renderEntry] at h
    simp only [List.head?_cons, Option.some.injEq] at h
    subst h
    decide
  · intro c h
    rw [renderEntry, ← List.cons_append, List.getLast?_concat] at h
    simp only [Option.some.injEq] at h
    subst h
    decide

theorem renderEntry_isEmpty (e : JEntry) : (renderEntry e).isEmpty = false := by
  rw [renderEntry]
  rfl

/-! ## Lemmas: digits -/

theorem digitChar_isDigit {d : Nat} (h : d < 10) : (Nat.digitChar d).isDigit = true := by
  interval_cases d <;> decide

theorem digitVal_digitChar {d : Nat} (h : d < 10) : digitVal (Nat.digitChar d) = d := by
  interval_cases d <;> decide

theorem natDigits_all_digit : ∀ n, ∀ c ∈ natDigits n, c.isDigit = true := by
  intro n
  induction n using Nat.strong_induction_on with
  | _ n ih =>
    rw [natDigits]
    split
    · intro c hc
      simp only [List.mem_singleton] at hc
      subst hc
      exact digitChar_isDigit (by omega)
    · rename_i hn
      intro c hc
      rw [List.mem_append] at hc
      rcases hc with hc | hc
      · exact ih (n / 10) (Nat.div_lt_self (by omega) (by omega)) c hc
      · simp only [List.mem_singleton] at hc
        subst hc
        exact digitChar_isDigit (Nat.mod_lt _ (by omega))

theorem natDigits_ne_nil (n : Nat) : natDigits n ≠ [] := by
  rw [natDigits]
  split
  · simp
  · simp

theorem digitsToNat_append (a b : LC) (acc : Nat) :
    digitsToNat acc (a ++ b) = digitsToNat (digitsToNat acc a) b := by
  induction a generalizing acc with
  | nil => rfl
  | cons c t ih =>
    rw [List.cons_append]
    show digitsToNat (acc * 10 + digitVal c) (t ++ b) =
      digitsToNat (digitsToNat (acc * 10 + digitVal c) t) b
    exact ih _

theorem digitsToNat_singleton (A : Nat) (c : Char) :
    digitsToNat A [c] = A * 10 + digitVal c := rfl

theorem digitsToNat_natDigits :
    ∀ n acc, digitsToNat acc (natDigits n) = acc * 10 ^ (natDigits n).length + n := by
  intro n
  induction n using Nat.strong_induction_on with
  | _ n ih =>
    intro acc
    rw [natDigits]
    split
    · rename_i hn
      rw [digitsToNat_singleton, digitVal_digitChar hn, List.length_singleton, pow_one]
    · rename_i hn
      rw [digitsToNat_append, ih (n / 10) (Nat.div_lt_self (by omega) (by omega)),
        digitsToNat_singleton, digitVal_digitChar (Nat.mod_lt n (by omega)),
        List.length_append, List.length_singleton, pow_succ, ← mul_assoc]
      generalize acc * 10 ^ (natDigits (n / 10)).length = A
      omega

theorem digitsToNat_natDigits_zero (n : Nat) : digitsToNat 0 (natDigits n) = n := by
  simpa using digitsToNat_natDigits n 0

theorem takeWhile_append_all {p : Char → Bool} {a : LC} (b : LC)
    (h : ∀ c ∈ a, p c = true) : (a ++ b).takeWhile p = a ++ b.takeWhile p := by
  induction a with
  | nil => rfl
  | cons x t ih =>
    rw [List.cons_append, List.takeWhile_cons, if_pos (h x (by simp))]
    rw [ih (fun c hc => h c (by simp [hc])), List.cons_append]

theorem dropWhile_append_all {p : Char → Bool} {a : LC} (b : LC)
    (h : ∀ c ∈ a, p c = true) : (a ++ b).dropWhile p = b.dropWhile p := by
  induction a with
  | nil => rfl
  | cons x t ih =>
    rw [List.cons_append, List.dropWhile_cons_of_pos (h x (by simp))]
    exact ih (fun c hc => h c (by simp [hc]))

theorem parseNatTok_natDigits (n : Nat) (rest : LC)
    (h : rest.takeWhile Char.isDigit = []) :
    parseNatTok (natDigits n ++ rest) = some (n, rest) := by
  unfold parseNatTok
  rw [takeWhile_append_all rest (natDigits_all_digit n), h, List.append_nil]
  rw [dropWhile_append_all rest (natDigits_all_digit n), dropWhile_of_takeWhile_nil h]
  simp [List.isEmpty_iff, natDigits_ne_nil n, digitsToNat_natDigits_zero]

/-! ## Lemmas: string-body and primitive round trips -/

theorem parseStrBody_escape (s : LC) (rest : LC) :
    parseStrBody (escape s ++ '"' :: rest) = some (s, rest) := by
  induction s with
  | nil =>
    show parseStrBody ('"' :: rest) = some ([], rest)
    rw [parseStrBody.eq_def]
    simp
  | cons c t ih =>
    by_cases h1 : c = '"'
    · subst h1
      show parseStrBody (('\\' :: '"' :: escape t) ++ '"' :: rest) = _
      simp only [List.cons_append]
      rw [parseStrBody.eq_def]
      simp [unescapeChar, ih]
    · by_cases h2 : c = '\\'
      · subst h2
        show parseStrBody (('\\' :: '\\' :: escape t) ++ '"' :: rest) = _
        simp only [List.cons_append]
        rw [parseStrBody.eq_def]
        simp [unescapeChar, ih]
      · by_cases h3 : c = '\n'
        · subst h3
          show parseStrBody (('\\' :: 'n' :: escape t) ++ '"' :: rest) = _
          simp only [List.cons_append]
          rw [parseStrBody.eq_def]
          simp [unescapeChar, ih]
        · have he : escape (c :: t) = c :: escape t := by
            rw [escape, escapeChar, if_neg h1, if_neg h2, if_neg h3, List.singleton_append]
          rw [he, List.cons_append, parseStrBody.eq_def]
          simp only []
          rw [if_neg h1, if_neg h2, ih]

theorem isDigit_not_jsonWs {c : Char} (h : c.isDigit = true) : jsonWs c = false := by
  rw [jsonWs]
  have : c ≠ ' ' ∧ c ≠ '\t' ∧ c ≠ '\n' ∧ c ≠ '\r' := by
    refine ⟨?_, ?_, ?_, ?_⟩ <;> · intro e; rw [e] at h; exact absurd h (by decide)
  simp [this.1, this.2.1, this.2.2.1, this.2.2.2]

theorem isDigit_ne {c d : Char} (h : c.isDigit = true) (hd : d.isDigit = false) : c ≠ d := by
  intro e
  rw [e, hd] at h
  cases h

theorem takeWhile_digit_nil {c : Char} (t : LC) (h : c.isDigit = false) :
    (c :: t).takeWhile Char.isDigit = [] := by
  rw [List.takeWhile_cons, if_neg (by simp [h])]

theorem parsePrim_render (p : JPrim) (rest : LC)
    (h : rest.takeWhile Char.isDigit = []) :
    parsePrim (renderPrim p ++ rest) = some (p, rest) := by
  cases p with
  | str s =>
    show parsePrim (('"' :: (escape s ++ ['"'])) ++ rest) = _
    simp only [List.cons_append, List.append_assoc, List.singleton_append]
    rw [parsePrim, if_pos rfl, parseStrBody_escape]
    rfl
  | num n =>
    rw [renderPrim, renderInt]
    by_cases hn : n < 0
    · rw [if_pos hn, List.cons_append, parsePrim,
        if_neg (by decide : ¬('-' : Char) = '"'), if_pos rfl,
        parseNatTok_natDigits _ _ h]
      have : ((n.natAbs : Int)) = -n := Int.ofNat_natAbs_of_nonpos (by omega)
      simp [Option.map, this]
    · rw [if_neg hn]
      obtain ⟨c, t, hct⟩ : ∃ c t, natDigits n.toNat = c :: t := by
        cases hh : natDigits n.toNat with
        | nil => exact absurd hh (natDigits_ne_nil _)
        | cons c t => exact ⟨c, t, rfl⟩
      have hdig : c.isDigit = true := natDigits_all_digit n.toNat c (by rw [hct]; simp)
      rw [hct, List.cons_append, parsePrim,
        if_neg (isDigit_ne hdig (by decide)), if_neg (isDigit_ne hdig (by decide)),
        ← List.cons_append, ← hct, parseNatTok_natDigits _ _ h]
      have : ((n.toNat : Int)) = n := Int.toNat_of_nonneg (by omega)
      simp [Option.map, this]

/-! ## Lemmas: association lists and dict collapse -/

theorem insertAssoc_not_mem {β : Type} (l : List (LC × β)) (k : LC) (v : β)
    (h : k ∉ l.map Prod.fst) : insertAssoc l k v = l ++ [(k, v)] := by
  induction l with
  | nil => rfl
  | cons kv t ih =>
    obtain ⟨k', v'⟩ := kv
    rw [insertAssoc]
    rw [if_neg (fun hkk => h (by subst hkk; rw [List.map_cons]; exact List.mem_cons_self _ _))]
    rw [ih (fun hm => h (by rw [List.map_cons]; exact List.mem_cons_of_mem _ hm))]
    rw [List.cons_append]

theorem mem_insertAssoc_map_fst {β : Type} (l : List (LC × β)) (k : LC) (v : β) (x : LC) :
    x ∈ (insertAssoc l k v).map Prod.fst ↔ x ∈ l.map Prod.fst ∨ x = k := by
  induction l with
  | nil =>
    rw [insertAssoc]
    simp only [List.map_cons, List.map_nil, List.mem_singleton, List.not_mem_nil, false_or]
  | cons kv t ih =>
    obtain ⟨k', v'⟩ := kv
    rw [insertAssoc]
    by_cases hk : k' = k
    · subst hk
      rw [if_pos rfl]
      simp only [List.map_cons, List.mem_cons]
      tauto
    · rw [if_neg hk]
      simp only [List.map_cons, List.mem_cons, ih]
      tauto

theorem insertAssoc_nodup {β : Type} (l : List (LC × β)) (k : LC) (v : β)
    (h : (l.map Prod.fst).Nodup) : ((insertAssoc l k v).map Prod.fst).Nodup := by
  induction l with
  | nil =>
    rw [insertAssoc]
    simp only [List.map_cons, List.map_nil]
    exact List.nodup_singleton k
  | cons kv t ih =>
    obtain ⟨k', v'⟩ := kv
    rw [insertAssoc]
    simp only [List.map_cons, List.nodup_cons] at h
    by_cases hk : k' = k
    · subst hk
      rw [if_pos rfl]
      simp only [List.map_cons, List.nodup_cons]
      exact h
    · rw [if_neg hk]
      simp only [List.map_cons, List.nodup_cons]
      refine ⟨?_, ih h.2⟩
      rw [mem_insertAssoc_map_fst]
      rintro (hm | rfl)
      · exact h.1 hm
      · exact hk rfl

theorem collapseFields_nodup {β : Type} (l : List (LC × β)) :
    ((collapseFields l).map Prod.fst).Nodup := by
  suffices h : ∀ (l acc : List (LC × β)), (acc.map Prod.fst).Nodup →
      ((l.foldl (fun acc kv => insertAssoc acc kv.1 kv.2) acc).map Prod.fst).Nodup by
    exact h l [] List.nodup_nil
  intro l
  induction l with
  | nil => intro acc h; simpa using h
  | cons kv t ih =>
    intro acc h
    exact ih _ (insertAssoc_nodup _ _ _ h)

theorem foldl_insertAssoc_nodup {β : Type} :
    ∀ (l acc : List (LC × β)), (((acc ++ l).map Prod.fst)).Nodup →
    l.foldl (fun acc kv => insertAssoc acc kv.1 kv.2) acc = acc ++ l := by
  intro l
  induction l with
  | nil => intro acc _; simp
  | cons kv t ih =>
    intro acc h
    obtain ⟨k, v⟩ := kv
    have hk : k ∉ acc.map Prod.fst := by
      rw [List.map_append] at h
      have hd := (List.nodup_append.mp h).2.2
      intro hm
      exact hd hm (by rw [List.map_cons]; exact List.mem_cons_self _ _)
    rw [List.foldl_cons]
    rw [show insertAssoc acc k v = acc ++ [(k, v)] from insertAssoc_not_mem _ _ _ hk]
    rw [ih (acc ++ [(k, v)]) (by simpa [List.append_assoc] using h)]
    simp

theorem collapseFields_self {β : Type} (l : List (LC × β))
    (h : (l.map Prod.fst).Nodup) : collapseFields l = l := by
  unfold collapseFields
  have := foldl_insertAssoc_nodup l [] (by simpa using h)
  simpa using this

/-! ## Lemmas: token head shapes -/

theorem renderPrim_cons (p : JPrim) :
    ∃ c t, renderPrim p = c :: t ∧ jsonWs c = false ∧ c ≠ '{' := by
  cases p with
  | str s => exact ⟨'"', escape s ++ ['"'], rfl, by decide, by decide⟩
  | num n =>
    rw [renderPrim, renderInt]
    by_cases hn : n < 0
    · exact ⟨'-', _, by rw [if_pos hn], by decide, by decide⟩
    · obtain ⟨c, t, hct⟩ : ∃ c t, natDigits n.toNat = c :: t := by
        cases hh : natDigits n.toNat with
        | nil => exact absurd hh (natDigits_ne_nil _)
        | cons c t => exact ⟨c, t, rfl⟩
      have hdig : c.isDigit = true := natDigits_all_digit n.toNat c (by rw [hct]; simp)
      exact ⟨c, t, by rw [if_neg hn, hct], isDigit_not_jsonWs hdig,
        isDigit_ne hdig (by decide)⟩

theorem dropWhile_jsonWs_cons_of_false {c : Char} (t : LC) (h : jsonWs c = false) :
    List.dropWhile jsonWs (c :: t) = c :: t :=
  List.dropWhile_cons_of_neg (by simp [h])

theorem dropWhile_jsonWs_renderPrim (p : JPrim) (rest : LC) :
    List.dropWhile jsonWs (renderPrim p ++ rest) = renderPrim p ++ rest := by
  obtain ⟨c, t, hct, hws, _⟩ := renderPrim_cons p
  rw [hct, List.cons_append, dropWhile_jsonWs_cons_of_false _ hws]

theorem takeWhile_digit_rbrace (rest : LC) :
    ('}' :: rest).takeWhile Char.isDigit = [] :=
  takeWhile_digit_nil rest (by decide)

theorem takeWhile_digit_comma (rest : LC) :
    (',' :: rest).takeWhile Char.isDigit = [] :=
  takeWhile_digit_nil rest (by decide)

theorem parsePrim_render_rbrace (p : JPrim) (rest : LC) :
    parsePrim (renderPrim p ++ '}' :: rest) = some (p, '}' :: rest) :=
  parsePrim_render p _ (takeWhile_digit_rbrace rest)

theorem parsePrim_render_comma (p : JPrim) (rest : LC) :
    parsePrim (renderPrim p ++ ',' :: rest) = some (p, ',' :: rest) :=
  parsePrim_render p _ (takeWhile_digit_comma rest)

theorem renderPrim_str (k : LC) :
    renderPrim (JPrim.str k) = '"' :: (escape k ++ ['"']) := rfl

theorem dropWhile_jsonWs_renderInnerFields (k : LC) (v : JPrim) (t : List (LC × JPrim))
    (rest : LC) :
    List.dropWhile jsonWs (renderInnerFields ((k, v) :: t) ++ rest)
      = renderInnerFields ((k, v) :: t) ++ rest := by
  cases t with
  | nil =>
    rw [renderInnerFields]
    simp only [List.append_assoc]
    rw [dropWhile_jsonWs_renderPrim]
  | cons f2 t2 =>
    rw [renderInnerFields]
    simp only [List.append_assoc]
    rw [dropWhile_jsonWs_renderPrim]

theorem parseInnerFields_render :
    ∀ (t : List (LC × JPrim)) (k : LC) (v : JPrim) (fuel : Nat) (rest : LC),
      t.length + 1 ≤ fuel →
      parseInnerFields fuel (renderInnerFields ((k, v) :: t) ++ '}' :: rest)
        = some ((k, v) :: t, rest) := by
  intro t
  induction t with
  | nil =>
    intro k v fuel rest hlen
    cases fuel with
    | zero => omega
    | succ fuel' =>
      simp [renderInnerFields, renderPrim_str, parseInnerFields, parseStrBody_escape,
        List.dropWhile_cons, jsonWs, dropWhile_jsonWs_renderPrim, parsePrim_render_rbrace,
        List.append_assoc]
  | cons f2 t2 ih =>
    intro k v fuel rest hlen
    obtain ⟨k2, v2⟩ := f2
    cases fuel with
    | zero =>
      simp only [List.length_cons] at hlen
      omega
    | succ fuel' =>
      have hrec := ih k2 v2 fuel' rest (by simp only [List.length_cons] at hlen ⊢; omega)
      simp [renderInnerFields, renderPrim_str, parseInnerFields, parseStrBody_escape,
        List.dropWhile_cons, jsonWs, dropWhile_jsonWs_renderPrim, parsePrim_render_comma,
        dropWhile_jsonWs_renderInnerFields, List.append_assoc, hrec]

theorem renderInnerFields_length :
    ∀ (t : List (LC × JPrim)) (k : LC) (v : JPrim),
      t.length + 1 ≤ (renderInnerFields ((k, v) :: t)).length := by
  intro t
  induction t with
  | nil =>
    intro k v
    rw [renderInnerFields]
    simp [renderPrim_str, List.length_append]
  | cons f2 t2 ih =>
    intro k v
    obtain ⟨k2, v2⟩ := f2
    rw [renderInnerFields]
    have h2 := ih k2 v2
    simp only [List.length_append, List.length_cons, renderPrim_str] at h2 ⊢
    omega

theorem renderInnerFields_cons_shape (k : LC) (v : JPrim) (t : List (LC × JPrim)) :
    ∃ X, renderInnerFields ((k, v) :: t) = '"' :: X := by
  cases t with
  | nil =>
    rw [renderInnerFields, renderPrim_str]
    exact ⟨_, by rw [List.cons_append]⟩
  | cons f2 t2 =>
    rw [renderInnerFields, renderPrim_str]
    exact ⟨_, by rw [List.cons_append, List.cons_append]⟩

theorem parseInnerObj_render (fs : List (LC × JPrim)) (rest : LC)
    (h : (fs.map Prod.fst).Nodup) :
    parseInnerObj (renderInnerObj fs ++ rest) = some (fs, rest) := by
  cases fs with
  | nil =>
    rw [renderInnerObj, renderInnerFields]
    simp only [List.nil_append, List.cons_append, List.singleton_append]
    rw [parseInnerObj]
    simp [List.dropWhile_cons, jsonWs]
  | cons f t =>
    obtain ⟨k, v⟩ := f
    obtain ⟨X, hX⟩ := renderInnerFields_cons_shape k v t
    have harg : renderInnerObj ((k, v) :: t) ++ rest
        = '{' :: ('"' :: (X ++ '}' :: rest)) := by
      rw [renderInnerObj, hX]
      simp [List.append_assoc]
    have hrt : parseInnerFields (('"' :: (X ++ '}' :: rest)).length + 1)
        ('"' :: (X ++ '}' :: rest)) = some ((k, v) :: t, rest) := by
      have h1 := renderInnerFields_length t k v
      have h2 : (renderInnerFields ((k, v) :: t)).length = ('"' :: X).length := by rw [hX]
      have hb : t.length + 1 ≤ ('"' :: (X ++ '}' :: rest)).length + 1 := by
        simp only [List.length_cons, List.length_append] at h1 h2 ⊢
        omega
      have hr := parseInnerFields_render t k v (('"' :: (X ++ '}' :: rest)).length + 1) rest hb
      rw [hX, List.cons_append] at hr
      exact hr
    rw [harg, parseInnerObj]
    rw [if_pos rfl, dropWhile_jsonWs_cons_of_false _ (by decide)]
    show (if ('"' : Char) = '}' then some ([], X ++ '}' :: rest)
      else Option.map (fun p => (collapseFields p.1, p.2))
        (parseInnerFields (('"' :: (X ++ '}' :: rest)).length + 1)
          ('"' :: (X ++ '}' :: rest)))) = some ((k, v) :: t, rest)
    rw [if_neg (by decide : ¬('"' : Char) = '}'), hrt]
    show some (collapseFields ((k, v) :: t), rest) = some ((k, v) :: t, rest)
    rw [collapseFields_self _ h]

theorem renderField_cons (v : JField) :
    ∃ c t, renderField v = c :: t ∧ jsonWs c = false := by
  cases v with
  | prim p =>
    obtain ⟨c, t, hct, hws, _⟩ := renderPrim_cons p
    exact ⟨c, t, hct, hws⟩
  | obj fs => exact ⟨'{', _, rfl, by decide⟩

theorem dropWhile_jsonWs_renderField (v : JField) (rest : LC) :
    List.dropWhile jsonWs (renderField v ++ rest) = renderField v ++ rest := by
  obtain ⟨c, t, hct, hws⟩ := renderField_cons v
  rw [hct, List.cons_append, dropWhile_jsonWs_cons_of_false _ hws]

theorem parseTopField_render (v : JField) (rest : LC)
    (hd : rest.takeWhile Char.isDigit = [])
    (hnd : ∀ fs, v = JField.obj fs → (fs.map Prod.fst).Nodup) :
    parseTopField (renderField v ++ rest) = some (v, rest) := by
  cases v with
  | prim p =>
    obtain ⟨c, t', hct, _, hbr⟩ := renderPrim_cons p
    show parseTopField (renderPrim p ++ rest) = _
    rw [hct, List.cons_append, parseTopField, if_neg hbr, ← List.cons_append, ← hct,
      parsePrim_render p rest hd]
    rfl
  | obj fs =>
    show parseTopField (renderInnerObj fs ++ rest) = _
    rw [renderInnerObj, List.cons_append, parseTopField, if_pos rfl, ← List.cons_append,
      ← renderInnerObj, parseInnerObj_render fs rest (hnd fs rfl)]
    rfl

theorem parseTopField_render_rbrace (v : JField) (rest : LC)
    (hnd : ∀ fs, v = JField.obj fs → (fs.map Prod.fst).Nodup) :
    parseTopField (renderField v ++ '}' :: rest) = some (v, '}' :: rest) :=
  parseTopField_render v _ (takeWhile_digit_rbrace rest) hnd

theorem parseTopField_render_comma (v : JField) (rest : LC)
    (hnd : ∀ fs, v = JField.obj fs → (fs.map Prod.fst).Nodup) :
    parseTopField (renderField v ++ ',' :: rest) = some (v, ',' :: rest) :=
  parseTopField_render v _ (takeWhile_digit_comma rest) hnd

theorem dropWhile_jsonWs_renderTopFields (k : LC) (v : JField) (t : List (LC × JField))
    (rest : LC) :
    List.dropWhile jsonWs (renderTopFields ((k, v) :: t) ++ rest)
      = renderTopFields ((k, v) :: t) ++ rest := by
  cases t with
  | nil =>
    rw [renderTopFields]
    simp only [List.append_assoc]
    rw [show renderPrim (JPrim.str k) ++ (':' :: ' ' :: renderField v ++ rest)
        = renderPrim (JPrim.str k) ++ (':' :: ' ' :: renderField v ++ rest) from rfl]
    rw [dropWhile_jsonWs_renderPrim]
  | cons f2 t2 =>
    rw [renderTopFields]
    simp only [List.append_assoc]
    rw [dropWhile_jsonWs_renderPrim]

theorem parseTopFields_render :
    ∀ (t : List (LC × JField)) (k : LC) (v : JField) (fuel : Nat) (rest : LC),
      t.length + 1 ≤ fuel →
      (∀ k' fs, (k', JField.obj fs) ∈ (k, v) :: t → (fs.map Prod.fst).Nodup) →
      parseTopFields fuel (renderTopFields ((k, v) :: t) ++ '}' :: rest)
        = some ((k, v) :: t, rest) := by
  intro t
  induction t with
  | nil =>
    intro k v fuel rest hlen hnd
    cases fuel with
    | zero => omega
    | succ fuel' =>
      have hv : parseTopField (renderField v ++ '}' :: rest) = some (v, '}' :: rest) :=
        parseTopField_render_rbrace v rest (fun fs hfs => hnd k fs (by simp [hfs]))
      simp [renderTopFields, renderPrim_str, parseTopFields, parseStrBody_escape,
        List.dropWhile_cons, jsonWs, dropWhile_jsonWs_renderField, hv, List.append_assoc]
  | cons f2 t2 ih =>
    intro k v fuel rest hlen hnd
    obtain ⟨k2, v2⟩ := f2
    cases fuel with
    | zero =>
      simp only [List.length_cons] at hlen
      omega
    | succ fuel' =>
      have hv : parseTopField (renderField v ++ ',' :: (' ' ::
          (renderTopFields ((k2, v2) :: t2) ++ '}' :: rest)))
          = some (v, ',' :: (' ' :: (renderTopFields ((k2, v2) :: t2) ++ '}' :: rest))) :=
        parseTopField_render_comma v _ (fun fs hfs => hnd k fs (by simp [hfs]))
      have hrec := ih k2 v2 fuel' rest
        (by simp only [List.length_cons] at hlen ⊢; omega)
        (fun k' fs hm => hnd k' fs (by simp at hm ⊢; tauto))
      simp [renderTopFields, renderPrim_str, parseTopFields, parseStrBody_escape,
        List.dropWhile_cons, jsonWs, dropWhile_jsonWs_renderField,
        dropWhile_jsonWs_renderTopFields, hv, hrec, List.append_assoc]

theorem renderTopFields_length :
    ∀ (t : List (LC × JField)) (k : LC) (v : JField),
      t.length + 1 ≤ (renderTopFields ((k, v) :: t)).length := by
  intro t
  induction t with
  | nil =>
    intro k v
    rw [renderTopFields]
    simp [renderPrim_str, List.length_append]
  | cons f2 t2 ih =>
    intro k v
    obtain ⟨k2, v2⟩ := f2
    rw [renderTopFields]
    have h2 := ih k2 v2
    simp only [List.length_append, List.length_cons, renderPrim_str] at h2 ⊢
    omega

theorem renderTopFields_cons_shape (k : LC) (v : JField) (t : List (LC × JField)) :
    ∃ X, renderTopFields ((k, v) :: t) = '"' :: X := by
  cases t with
  | nil =>
    rw [renderTopFields, renderPrim_str]
    exact ⟨_, by rw [List.cons_append]⟩
  | cons f2 t2 =>
    rw [renderTopFields, renderPrim_str]
    exact ⟨_, by rw [List.cons_append, List.cons_append]⟩

/-- `json.loads(json.dumps(data))` is the identity on well-formed manifest lines. -/
theorem parseEntry_render (e : JEntry) (hwf : EntryWf e) :
    parseEntry (renderEntry e) = some e := by
  obtain ⟨fields⟩ := e
  cases fields with
  | nil => decide
  | cons f t =>
    obtain ⟨k, v⟩ := f
    obtain ⟨X, hX⟩ := renderTopFields_cons_shape k v t
    have harg : renderEntry ⟨(k, v) :: t⟩ = '{' :: ('"' :: (X ++ ['}'])) := by
      rw [renderEntry]
      show '{' :: (renderTopFields ((k, v) :: t) ++ ['}']) = _
      rw [hX, List.cons_append]
    have hrt : parseTopFields (('"' :: (X ++ ['}'])).length + 1)
        ('"' :: (X ++ ['}'])) = some ((k, v) :: t, []) := by
      have h1 := renderTopFields_length t k v
      have h2 : (renderTopFields ((k, v) :: t)).length = ('"' :: X).length := by rw [hX]
      have hb : t.length + 1 ≤ ('"' :: (X ++ ['}'])).length + 1 := by
        simp only [List.length_cons, List.length_append] at h1 h2 ⊢
        omega
      have hr := parseTopFields_render t k v (('"' :: (X ++ ['}'])).length + 1) [] hb
        (fun k' fs hm => hwf.2 k' fs hm)
      rw [hX, List.cons_append] at hr
      exact hr
    rw [harg, parseEntry]
    show (match (if ('"' : Char) = '}' then some (([] : List (LC × JField)), X ++ ['}'])
        else parseTopFields (('"' :: (X ++ ['}'])).length + 1) ('"' :: (X ++ ['}']))) with
      | some (fs, r) =>
        if (r.dropWhile jsonWs).isEmpty then some (⟨collapseFields fs⟩ : JEntry) else none
      | none => none) = some (⟨(k, v) :: t⟩ : JEntry)
    rw [if_neg (by decide : ¬('"' : Char) = '}'), hrt]
    show (if (List.dropWhile jsonWs []).isEmpty then some (⟨collapseFields ((k, v) :: t)⟩ : JEntry)
      else none) = some (⟨(k, v) :: t⟩ : JEntry)
    rw [if_pos (by decide)]
    rw [collapseFields_self _ hwf.1]

theorem mem_insertAssoc_sub {β : Type} (l : List (LC × β)) (k : LC) (v : β) :
    ∀ kv ∈ insertAssoc l k v, kv ∈ l ∨ kv = (k, v) := by
  induction l with
  | nil => intro kv hm; right; simpa [insertAssoc] using hm
  | cons kv' t ih =>
    obtain ⟨k', v'⟩ := kv'
    intro kv hm
    rw [insertAssoc] at hm
    by_cases hk : k' = k
    · rw [if_pos hk] at hm
      rcases List.mem_cons.mp hm with rfl | hm
      · right; rfl
      · left; exact List.mem_cons_of_mem _ hm
    · rw [if_neg hk] at hm
      rcases List.mem_cons.mp hm with rfl | hm
      · left; exact List.mem_cons_self _ _
      · rcases ih kv hm with h | h
        · left; exact List.mem_cons_of_mem _ h
        · right; exact h

theorem mem_collapseFields {β : Type} (l : List (LC × β)) :
    ∀ kv ∈ collapseFields l, kv ∈ l := by
  suffices hgen : ∀ (l acc : List (LC × β)) kv,
      kv ∈ l.foldl (fun acc kv => insertAssoc acc kv.1 kv.2) acc → kv ∈ acc ∨ kv ∈ l by
    intro kv hm
    rcases hgen l [] kv hm with h | h
    · exact absurd h (List.not_mem_nil _)
    · exact h
  intro l
  induction l with
  | nil => intro acc kv hm; left; exact hm
  | cons kv' t ih =>
    obtain ⟨k', v'⟩ := kv'
    intro acc kv hm
    rw [List.foldl_cons] at hm
    rcases ih _ kv hm with h | h
    · rcases mem_insertAssoc_sub acc k' v' kv h with h2 | h2
      · left; exact h2
      · right; rw [h2]; exact List.mem_cons_self _ _
    · right; exact List.mem_cons_of_mem _ h

theorem parseInnerObj_nodup {s : LC} {fs : List (LC × JPrim)} {r : LC}
    (h : parseInnerObj s = some (fs, r)) : (fs.map Prod.fst).Nodup := by
  cases s with
  | nil => exact absurd h (by rw [parseInnerObj]; simp)
  | cons c rest =>
    rw [parseInnerObj] at h
    split at h
    · split at h
      · exact absurd h (by simp)
      · split at h
        · have hfs : fs = [] := by
            injection h with h2
            exact (congrArg Prod.fst h2).symm
          rw [hfs]
          exact List.nodup_nil
        · rw [Option.map_eq_some'] at h
          obtain ⟨⟨fs0, r0⟩, _, hfr⟩ := h
          injection hfr with h1 h2
          rw [← h1]
          exact collapseFields_nodup fs0
    · exact absurd h (by simp)

theorem parseTopField_wf {s : LC} {v : JField} {r : LC}
    (h : parseTopField s = some (v, r)) :
    ∀ fs, v = JField.obj fs → (fs.map Prod.fst).Nodup := by
  intro fs hv
  subst hv
  cases s with
  | nil => exact absurd h (by rw [parseTopField]; simp)
  | cons c rest =>
    rw [parseTopField] at h
    split at h
    · rw [Option.map_eq_some'] at h
      obtain ⟨⟨fs0, r0⟩, hio, hfr⟩ := h
      injection hfr with h1 h2
      injection h1 with hfs
      rw [← hfs]
      exact parseInnerObj_nodup hio
    · rw [Option.map_eq_some'] at h
      obtain ⟨⟨p0, r0⟩, _, hfr⟩ := h
      injection hfr with h1 h2
      exact JField.noConfusion h1

theorem parseTopFields_wf :
    ∀ (fuel : Nat) {s : LC} {fs : List (LC × JField)} {r : LC},
      parseTopFields fuel s = some (fs, r) →
      ∀ k vs, (k, JField.obj vs) ∈ fs → (vs.map Prod.fst).Nodup := by
  intro fuel
  induction fuel with
  | zero =>
    intro s fs r h
    exact absurd h (by rw [parseTopFields]; simp)
  | succ fuel ih =>
    intro s fs r h k vs hm
    cases s with
    | nil => exact absurd h (by rw [parseTopFields]; simp)
    | cons c rest =>
      rw [parseTopFields] at h
      split at h
      · split at h
        · exact absurd h (by simp)
        · split at h
          · exact absurd h (by simp)
          · split at h
            · split at h
              · exact absurd h (by simp)
              · rename_i v r5 heqf
                split at h
                · exact absurd h (by simp)
                · split at h
                  · split at h
                    · rename_i fs0 r8 hrec
                      injection h with h2
                      have hfs := congrArg Prod.fst h2
                      simp only [] at hfs
                      rw [← hfs] at hm
                      rcases List.mem_cons.mp hm with heq | hmem
                      · exact parseTopField_wf heqf vs (congrArg Prod.snd heq).symm
                      · exact ih hrec k vs hmem
                    · exact absurd h (by simp)
                  · split at h
                    · injection h with h2
                      have hfs := congrArg Prod.fst h2
                      simp only [] at hfs
                      rw [← hfs] at hm
                      rcases List.mem_cons.mp hm with heq | hmem
                      · exact parseTopField_wf heqf vs (congrArg Prod.snd heq).symm
                      · exact absurd hmem (List.not_mem_nil _)
                    · exact absurd h (by simp)
            · exact absurd h (by simp)
      · exact absurd h (by simp)

/-- `json.loads` output is well-formed: all key lists are duplicate-free. -/
theorem parseEntry_wf {s : LC} {e : JEntry} (h : parseEntry s = some e) : EntryWf e := by
  rw [parseEntry] at h
  split at h
  · exact absurd h (by simp)
  · split at h
    · split at h
      · exact absurd h (by simp)
      · split at h
        · simp only [] at h
          split at h
          · injection h with h2
            rw [← h2]
            exact ⟨List.nodup_nil, fun k vs hm => absurd hm (List.not_mem_nil _)⟩
          · exact absurd h (by simp)
        · simp only [] at h
          split at h
          · rename_i fs0 r0 hbody
            split at h
            · injection h with h2
              constructor
              · rw [← h2]
                exact collapseFields_nodup _
              · intro k vs hm
                rw [← h2] at hm
                exact parseTopFields_wf _ hbody k vs (mem_collapseFields _ _ hm)
            · exact absurd h (by simp)
          · exact absurd h (by simp)
    · exact absurd h (by simp)

/-! ## Lemmas: the update pass -/

theorem lookup_mem {β : Type} {m : List (LC × β)} {k : LC} {v : β}
    (h : List.lookup k m = some v) : (k, v) ∈ m := by
  induction m with
  | nil => simp [List.lookup] at h
  | cons kv t ih =>
    obtain ⟨k', v'⟩ := kv
    rw [List.lookup_cons] at h
    by_cases hk : k = k'
    · subst hk
      simp only [beq_self_eq_true] at h
      injection h with h2
      rw [h2]
      exact List.mem_cons_self _ _
    · rw [show (k == k') = false by simpa using hk] at h
      exact List.mem_cons_of_mem _ (ih h)

theorem setField_map_fst (fields : List (LC × JField)) (key : LC) (v : JField) :
    (setField fields key v).map Prod.fst = fields.map Prod.fst := by
  induction fields with
  | nil => rfl
  | cons kv t ih =>
    obtain ⟨k, w⟩ := kv
    rw [setField]
    by_cases hk : k = key
    · rw [if_pos hk]
      simp [hk]
    · rw [if_neg hk]
      simp [ih]

theorem mem_setField_sub (fields : List (LC × JField)) (key : LC) (v : JField) :
    ∀ kv ∈ setField fields key v, kv ∈ fields ∨ kv = (key, v) := by
  induction fields with
  | nil => intro kv hm; exact absurd hm (List.not_mem_nil _)
  | cons kw t ih =>
    obtain ⟨k, w⟩ := kw
    intro kv hm
    rw [setField] at hm
    by_cases hk : k = key
    · rw [if_pos hk] at hm
      rcases List.mem_cons.mp hm with rfl | hm2
      · right; rw [hk]
      · left; exact List.mem_cons_of_mem _ hm2
    · rw [if_neg hk] at hm
      rcases List.mem_cons.mp hm with rfl | hm2
      · left; exact List.mem_cons_self _ _
      · rcases ih kv hm2 with h2 | h2
        · left; exact List.mem_cons_of_mem _ h2
        · right; exact h2

theorem lookup_setField {fields : List (LC × JField)} {key : LC} {w : JField} (v : JField)
    (h : List.lookup key fields = some w) :
    List.lookup key (setField fields key v) = some v := by
  induction fields with
  | nil => simp [List.lookup] at h
  | cons kw t ih =>
    obtain ⟨k, w'⟩ := kw
    rw [setField]
    by_cases hk : k = key
    · rw [if_pos hk]
      subst hk
      simp [List.lookup_cons]
    · have hne : (key == k) = false := by simpa using fun e => hk e.symm
      rw [List.lookup_cons, hne] at h
      rw [if_neg hk, List.lookup_cons, hne]
      exact ih h

theorem setField_setField (fields : List (LC × JField)) (key : LC) (v : JField) :
    setField (setField fields key v) key v = setField fields key v := by
  induction fields with
  | nil => rfl
  | cons kw t ih =>
    obtain ⟨k, w⟩ := kw
    by_cases hk : k = key
    · subst hk
      rw [setField, if_pos rfl, setField, if_pos rfl]
    · rw [setField, if_neg hk, setField, if_neg hk, ih]

theorem updateVideos_ok {m : List (LC × LC)} :
    ∀ {vs vs' : List (LC × JPrim)} {b : Bool}, updateVideos m vs = .ok (vs', b) →
    vs'.map Prod.fst = vs.map Prod.fst ∧ b = videosHit m vs := by
  intro vs
  induction vs with
  | nil =>
    intro vs' b h
    injection h with h2
    injection h2 with ha hb
    subst ha
    subst hb
    exact ⟨rfl, rfl⟩
  | cons kv t ih =>
    intro vs' b h
    obtain ⟨k, p⟩ := kv
    cases p with
    | num n =>
      rw [updateVideos] at h
      exact Except.noConfusion h
    | str s =>
      rw [updateVideos] at h
      cases hrec : updateVideos m t with
      | error e =>
        rw [hrec] at h
        exact Except.noConfusion
          (show (Except.error e : Except Unit (List (LC × JPrim) × Bool))
            = Except.ok (vs', b) from h)
      | ok pr =>
        obtain ⟨t', b0⟩ := pr
        obtain ⟨hkeys, hflag⟩ := ih hrec
        rw [hrec] at h
        cases hl : List.lookup (basenameLC s) m with
        | some u =>
          rw [hl] at h
          replace h : (Except.ok ((k, JPrim.str u) :: t', true) :
              Except Unit (List (LC × JPrim) × Bool)) = Except.ok (vs', b) := h
          injection h with h2
          injection h2 with ha hb
          subst ha
          subst hb
          constructor
          · simp [hkeys]
          · rw [videosHit, List.any_cons]
            simp [hl]
        | none =>
          rw [hl] at h
          replace h : (Except.ok ((k, JPrim.str s) :: t', b0) :
              Except Unit (List (LC × JPrim) × Bool)) = Except.ok (vs', b) := h
          injection h with h2
          injection h2 with ha hb
          subst ha
          subst hb
          constructor
          · simp [hkeys]
          · rw [hflag, videosHit, videosHit, List.any_cons]
            simp [hl]

theorem updateVideos_stable {m : List (LC × LC)} (H : UrlMapStable m) :
    ∀ {vs vs' : List (LC × JPrim)} {b : Bool}, updateVideos m vs = .ok (vs', b) →
    updateVideos m vs' = .ok (vs', videosHit m vs') := by
  intro vs
  induction vs with
  | nil =>
    intro vs' b h
    injection h with h2
    injection h2 with ha hb
    subst ha
    rfl
  | cons kv t ih =>
    intro vs' b h
    obtain ⟨k, p⟩ := kv
    cases p with
    | num n =>
      rw [updateVideos] at h
      exact Except.noConfusion h
    | str s =>
      rw [updateVideos] at h
      cases hrec : updateVideos m t with
      | error e =>
        rw [hrec] at h
        exact Except.noConfusion
          (show (Except.error e : Except Unit (List (LC × JPrim) × Bool))
            = Except.ok (vs', b) from h)
      | ok pr =>
        obtain ⟨t', b0⟩ := pr
        have hstep := ih hrec
        rw [hrec] at h
        cases hl : List.lookup (basenameLC s) m with
        | some u =>
          rw [hl] at h
          replace h : (Except.ok ((k, JPrim.str u) :: t', true) :
              Except Unit (List (LC × JPrim) × Bool)) = Except.ok (vs', b) := h
          injection h with h2
          injection h2 with ha hb
          subst ha
          have hu : ∀ u', List.lookup (basenameLC u) m = some u' → u' = u :=
            H (basenameLC s) u (lookup_mem hl)
          rw [updateVideos, hstep]
          cases hl2 : List.lookup (basenameLC u) m with
          | some u' =>
            rw [hu u' hl2]
            show Except.ok ((k, JPrim.str u) :: t', true)
              = Except.ok ((k, JPrim.str u) :: t', videosHit m ((k, JPrim.str u) :: t'))
            rw [show videosHit m ((k, JPrim.str u) :: t') = true from by
              rw [videosHit, List.any_cons]
              simp [hl2]]
          | none =>
            show Except.ok ((k, JPrim.str u) :: t', videosHit m t')
              = Except.ok ((k, JPrim.str u) :: t', videosHit m ((k, JPrim.str u) :: t'))
            rw [show videosHit m ((k, JPrim.str u) :: t') = videosHit m t' from by
              rw [videosHit, videosHit, List.any_cons]
              simp [hl2]]
        | none =>
          rw [hl] at h
          replace h : (Except.ok ((k, JPrim.str s) :: t', b0) :
              Except Unit (List (LC × JPrim) × Bool)) = Except.ok (vs', b) := h
          injection h with h2
          injection h2 with ha hb
          subst ha
          rw [updateVideos, hstep, hl]
          show Except.ok ((k, JPrim.str s) :: t', videosHit m t')
            = Except.ok ((k, JPrim.str s) :: t', videosHit m ((k, JPrim.str s) :: t'))
          rw [show videosHit m ((k, JPrim.str s) :: t') = videosHit m t' from by
            rw [videosHit, videosHit, List.any_cons]
            simp [hl]]

theorem updateEntry_ok {m : List (LC × LC)} {e e' : JEntry} {b : Bool}
    (h : updateEntry m e = .ok (e', b)) :
    e'.fields.map Prod.fst = e.fields.map Prod.fst ∧ b = entryHit m e := by
  rw [updateEntry] at h
  split at h
  · rename_i hl
    injection h with h2
    injection h2 with ha hb
    subst ha
    subst hb
    exact ⟨rfl, by rw [entryHit, hl]⟩
  · exact Except.noConfusion h
  · rename_i vs hl
    cases hv : updateVideos m vs with
    | error e0 =>
      rw [hv] at h
      exact Except.noConfusion
        (show (Except.error e0 : Except Unit (JEntry × Bool)) = Except.ok (e', b) from h)
    | ok pr =>
      obtain ⟨vs', b0⟩ := pr
      rw [hv] at h
      replace h : (Except.ok ((⟨setField e.fields videosKey (JField.obj vs')⟩ : JEntry), b0) :
          Except Unit (JEntry × Bool)) = Except.ok (e', b) := h
      injection h with h2
      injection h2 with ha hb
      subst ha
      subst hb
      obtain ⟨_, hflag⟩ := updateVideos_ok hv
      refine ⟨setField_map_fst _ _ _, ?_⟩
      rw [entryHit, hl]
      exact hflag

theorem updateEntry_wf {m : List (LC × LC)} {e e' : JEntry} {b : Bool}
    (hwf : EntryWf e) (h : updateEntry m e = .ok (e', b)) : EntryWf e' := by
  rw [updateEntry] at h
  split at h
  · injection h with h2
    injection h2 with ha hb
    subst ha
    exact hwf
  · exact Except.noConfusion h
  · rename_i vs hl
    cases hv : updateVideos m vs with
    | error e0 =>
      rw [hv] at h
      exact Except.noConfusion
        (show (Except.error e0 : Except Unit (JEntry × Bool)) = Except.ok (e', b) from h)
    | ok pr =>
      obtain ⟨vs', b0⟩ := pr
      rw [hv] at h
      replace h : (Except.ok ((⟨setField e.fields videosKey (JField.obj vs')⟩ : JEntry), b0) :
          Except Unit (JEntry × Bool)) = Except.ok (e', b) := h
      injection h with h2
      injection h2 with ha hb
      subst ha
      obtain ⟨hkeys, _⟩ := updateVideos_ok hv
      constructor
      · show ((setField e.fields videosKey (JField.obj vs')).map Prod.fst).Nodup
        rw [setField_map_fst]
        exact hwf.1
      · intro k ws hm
        rcases mem_setField_sub _ _ _ _ hm with hm2 | hm2
        · exact hwf.2 k ws hm2
        · injection hm2 with hk hobj
          injection hobj with hws
          rw [hws, hkeys]
          exact hwf.2 videosKey vs (lookup_mem hl)

theorem updateEntry_stable {m : List (LC × LC)} (H : UrlMapStable m) {e e' : JEntry} {b : Bool}
    (h : updateEntry m e = .ok (e', b)) :
    updateEntry m e' = .ok (e', entryHit m e') := by
  rw [updateEntry] at h
  split at h
  · rename_i hl
    injection h with h2
    injection h2 with ha hb
    subst ha
    rw [updateEntry, hl, entryHit, hl]
  · exact Except.noConfusion h
  · rename_i vs hl
    cases hv : updateVideos m vs with
    | error e0 =>
      rw [hv] at h
      exact Except.noConfusion
        (show (Except.error e0 : Except Unit (JEntry × Bool)) = Except.ok (e', b) from h)
    | ok pr =>
      obtain ⟨vs', b0⟩ := pr
      rw [hv] at h
      replace h : (Except.ok ((⟨setField e.fields videosKey (JField.obj vs')⟩ : JEntry), b0) :
          Except Unit (JEntry × Bool)) = Except.ok (e', b) := h
      injection h with h2
      injection h2 with ha hb
      subst ha
      have hl2 : List.lookup videosKey (setField e.fields videosKey (JField.obj vs'))
          = some (JField.obj vs') := lookup_setField _ hl
      have hstep := updateVideos_stable H hv
      rw [updateEntry, hl2]
      show (do
        let pr2 ← updateVideos m vs'
        Except.ok ((⟨setField (setField e.fields videosKey (JField.obj vs')) videosKey
          (JField.obj pr2.1)⟩ : JEntry), pr2.2))
        = Except.ok ((⟨setField e.fields videosKey (JField.obj vs')⟩ : JEntry),
            entryHit m (⟨setField e.fields videosKey (JField.obj vs')⟩ : JEntry))
      rw [hstep]
      show Except.ok ((⟨setField (setField e.fields videosKey (JField.obj vs')) videosKey
          (JField.obj vs')⟩ : JEntry), videosHit m vs') = _
      rw [setField_setField]
      rw [show entryHit m (⟨setField e.fields videosKey (JField.obj vs')⟩ : JEntry)
        = videosHit m vs' from by rw [entryHit, hl2]]

theorem update_jsonl_lines_out {m : List (LC × LC)} (H : UrlMapStable m) :
    ∀ {lines out : List LC} {n : Nat}, update_jsonl_lines m lines = .ok (out, n) →
    ∀ l ∈ out, LineStable m l := by
  intro lines
  induction lines with
  | nil =>
    intro out n h l hl
    injection h with h2
    injection h2 with ha hb
    subst ha
    exact absurd hl (List.not_mem_nil _)
  | cons l0 rest ih =>
    intro out n h l hl
    rw [update_jsonl_lines] at h
    simp only [] at h
    by_cases hblank : (pyStrip l0).isEmpty
    · rw [if_pos hblank] at h
      exact ih h l hl
    · rw [if_neg hblank] at h
      have hne0 : pyStrip l0 ≠ [] := by
        intro e
        exact hblank (by rw [e]; rfl)
      cases hp : parseEntry (pyStrip l0) with
      | none =>
        rw [hp] at h
        cases hrec : update_jsonl_lines m rest with
        | error e =>
          rw [hrec] at h
          exact Except.noConfusion
            (show (Except.error e : Except Unit (List LC × Nat)) = Except.ok (out, n) from h)
        | ok pr =>
          obtain ⟨out0, n0⟩ := pr
          rw [hrec] at h
          replace h : (Except.ok (pyStrip l0 :: out0, n0) : Except Unit (List LC × Nat))
              = Except.ok (out, n) := h
          injection h with h2
          injection h2 with ha hb
          subst ha
          rcases List.mem_cons.mp hl with rfl | hmem
          · exact ⟨pyStrip_idem l0, hne0, Or.inl hp⟩
          · exact ih hrec l hmem
      | some e0 =>
        rw [hp] at h
        replace h : (do
            let pr0 ← updateEntry m e0
            let pr ← update_jsonl_lines m rest
            Except.ok (renderEntry pr0.1 :: pr.1, pr.2 + if pr0.2 = true then 1 else 0) :
            Except Unit (List LC × Nat)) = Except.ok (out, n) := h
        cases hu : updateEntry m e0 with
        | error e =>
          rw [hu] at h
          exact Except.noConfusion
            (show (Except.error e : Except Unit (List LC × Nat)) = Except.ok (out, n) from h)
        | ok pr0 =>
          obtain ⟨e0', b0⟩ := pr0
          rw [hu] at h
          cases hrec : update_jsonl_lines m rest with
          | error e =>
            rw [hrec] at h
            exact Except.noConfusion
              (show (Except.error e : Except Unit (List LC × Nat)) = Except.ok (out, n) from h)
          | ok pr =>
            obtain ⟨out0, n0⟩ := pr
            rw [hrec] at h
            replace h : (Except.ok (renderEntry e0' :: out0, n0 + if b0 then 1 else 0) :
                Except Unit (List LC × Nat)) = Except.ok (out, n) := h
            injection h with h2
            injection h2 with ha hb
            subst ha
            rcases List.mem_cons.mp hl with rfl | hmem
            · refine ⟨pyStrip_renderEntry e0', by rw [renderEntry]; simp, Or.inr ?_⟩
              refine ⟨e0', entryHit m e0', ?_, rfl, updateEntry_stable H hu⟩
              exact parseEntry_render e0' (updateEntry_wf (parseEntry_wf hp) hu)
            · exact ih hrec l hmem

theorem update_jsonl_lines_stable {m : List (LC × LC)} :
    ∀ {out : List LC}, (∀ l ∈ out, LineStable m l) →
    update_jsonl_lines m out = .ok (out, out.countP (lineHit m)) := by
  intro out
  induction out with
  | nil => intro _; rfl
  | cons l rest ih =>
    intro h
    obtain ⟨hstrip, hne, hcases⟩ := h l (List.mem_cons_self _ _)
    have hrest := ih (fun l' hl' => h l' (List.mem_cons_of_mem _ hl'))
    have hbe : l.isEmpty = false := by
      cases l with
      | nil => exact absurd rfl hne
      | cons c t => rfl
    rw [update_jsonl_lines]
    simp only [hstrip]
    rw [if_neg (by simp [hbe])]
    rcases hcases with hnone | ⟨e, b, hp, hrender, hupd⟩
    · rw [hnone, hrest]
      show Except.ok (l :: rest, rest.countP (lineHit m))
        = Except.ok (l :: rest, (l :: rest).countP (lineHit m))
      rw [List.countP_cons]
      rw [show lineHit m l = false from by rw [lineHit, hstrip, hnone]]
      simp
    · rw [hp]
      show (do
          let pr0 ← updateEntry m e
          let pr ← update_jsonl_lines m rest
          Except.ok (renderEntry pr0.1 :: pr.1, pr.2 + if pr0.2 = true then 1 else 0) :
          Except Unit (List LC × Nat))
        = Except.ok (l :: rest, (l :: rest).countP (lineHit m))
      rw [hupd, hrest]
      show Except.ok (renderEntry e :: rest,
          rest.countP (lineHit m) + if b then 1 else 0)
        = Except.ok (l :: rest, (l :: rest).countP (lineHit m))
      rw [hrender, List.countP_cons]
      rw [show lineHit m l = entryHit m e from by rw [lineHit, hstrip, hp]]
      rw [(updateEntry_ok hupd).2]

theorem update_jsonl_lines_count {m : List (LC × LC)} :
    ∀ {lines out : List LC} {n : Nat}, update_jsonl_lines m lines = .ok (out, n) →
    n = lines.countP (lineHit m) := by
  intro lines
  induction lines with
  | nil =>
    intro out n h
    injection h with h2
    injection h2 with ha hb
    subst hb
    rfl
  | cons l0 rest ih =>
    intro out n h
    rw [update_jsonl_lines] at h
    simp only [] at h
    by_cases hblank : (pyStrip l0).isEmpty
    · rw [if_pos hblank] at h
      rw [List.countP_cons]
      rw [show lineHit m l0 = false from by
        rw [lineHit, show pyStrip l0 = [] from by simpa [List.isEmpty_iff] using hblank]
        rfl]
      simpa using ih h
    · rw [if_neg hblank] at h
      cases hp : parseEntry (pyStrip l0) with
      | none =>
        rw [hp] at h
        cases hrec : update_jsonl_lines m rest with
        | error e =>
          rw [hrec] at h
          exact Except.noConfusion
            (show (Except.error e : Except Unit (List LC × Nat)) = Except.ok (out, n) from h)
        | ok pr =>
          obtain ⟨out0, n0⟩ := pr
          rw [hrec] at h
          replace h : (Except.ok (pyStrip l0 :: out0, n0) : Except Unit (List LC × Nat))
              = Except.ok (out, n) := h
          injection h with h2
          injection h2 with ha hb
          subst hb
          rw [List.countP_cons]
          rw [show lineHit m l0 = false from by rw [lineHit, hp]]
          simpa using ih hrec
      | some e0 =>
        rw [hp] at h
        replace h : (do
            let pr0 ← updateEntry m e0
            let pr ← update_jsonl_lines m rest
            Except.ok (renderEntry pr0.1 :: pr.1, pr.2 + if pr0.2 = true then 1 else 0) :
            Except Unit (List LC × Nat)) = Except.ok (out, n) := h
        cases hu : updateEntry m e0 with
        | error e =>
          rw [hu] at h
          exact Except.noConfusion
            (show (Except.error e : Except Unit (List LC × Nat)) = Except.ok (out, n) from h)
        | ok pr0 =>
          obtain ⟨e0', b0⟩ := pr0
          rw [hu] at h
          cases hrec : update_jsonl_lines m rest with
          | error e =>
            rw [hrec] at h
            exact Except.noConfusion
              (show (Except.error e : Except Unit (List LC × Nat)) = Except.ok (out, n) from h)
          | ok pr =>
            obtain ⟨out0, n0⟩ := pr
            rw [hrec] at h
            replace h : (Except.ok (renderEntry e0' :: out0, n0 + if b0 then 1 else 0) :
                Except Unit (List LC × Nat)) = Except.ok (out, n) := h
            injection h with h2
            injection h2 with ha hb
            subst hb
            rw [List.countP_cons]
            rw [show lineHit m l0 = entryHit m e0 from by rw [lineHit, hp]]
            rw [← ih hrec, (updateEntry_ok hu).2]

theorem update_jsonl_lines_raw_mem {m : List (LC × LC)} :
    ∀ {lines out : List LC} {n : Nat}, update_jsonl_lines m lines = .ok (out, n) →
    ∀ l ∈ lines, pyStrip l ≠ [] → parseEntry (pyStrip l) = none → pyStrip l ∈ out := by
  intro lines
  induction lines with
  | nil =>
    intro out n h l hl
    exact absurd hl (List.not_mem_nil _)
  | cons l0 rest ih =>
    intro out n h l hl hne hp
    rw [update_jsonl_lines] at h
    simp only [] at h
    by_cases hblank : (pyStrip l0).isEmpty
    · rw [if_pos hblank] at h
      rcases List.mem_cons.mp hl with rfl | hmem
      · exact absurd (by simpa [List.isEmpty_iff] using hblank) hne
      · exact ih h l hmem hne hp
    · rw [if_neg hblank] at h
      cases hp0 : parseEntry (pyStrip l0) with
      | none =>
        rw [hp0] at h
        cases hrec : update_jsonl_lines m rest with
        | error e =>
          rw [hrec] at h
          exact Except.noConfusion
            (show (Except.error e : Except Unit (List LC × Nat)) = Except.ok (out, n) from h)
        | ok pr =>
          obtain ⟨out0, n0⟩ := pr
          rw [hrec] at h
          replace h : (Except.ok (pyStrip l0 :: out0, n0) : Except Unit (List LC × Nat))
              = Except.ok (out, n) := h
          injection h with h2
          injection h2 with ha hb
          subst ha
          rcases List.mem_cons.mp hl with rfl | hmem
          · exact List.mem_cons_self _ _
          · exact List.mem_cons_of_mem _ (ih hrec l hmem hne hp)
      | some e0 =>
        rw [hp0] at h
        replace h : (do
            let pr0 ← updateEntry m e0
            let pr ← update_jsonl_lines m rest
            Except.ok (renderEntry pr0.1 :: pr.1, pr.2 + if pr0.2 = true then 1 else 0) :
            Except Unit (List LC × Nat)) = Except.ok (out, n) := h
        cases hu : updateEntry m e0 with
        | error e =>
          rw [hu] at h
          exact Except.noConfusion
            (show (Except.error e : Except Unit (List LC × Nat)) = Except.ok (out, n) from h)
        | ok pr0 =>
          obtain ⟨e0', b0⟩ := pr0
          rw [hu] at h
          cases hrec : update_jsonl_lines m rest with
          | error e =>
            rw [hrec] at h
            exact Except.noConfusion
              (show (Except.error e : Except Unit (List LC × Nat)) = Except.ok (out, n) from h)
          | ok pr =>
            obtain ⟨out0, n0⟩ := pr
            rw [hrec] at h
            replace h : (Except.ok (renderEntry e0' :: out0, n0 + if b0 then 1 else 0) :
                Except Unit (List LC × Nat)) = Except.ok (out, n) := h
            injection h with h2
            injection h2 with ha hb
            subst ha
            rcases List.mem_cons.mp hl with rfl | hmem
            · rw [hp] at hp0
              exact Option.noConfusion hp0
            · exact List.mem_cons_of_mem _ (ih hrec l hmem hne hp)

/-- C7: when the Resolver's signing invocation fails (tool unavailable, 60-second
timeout, or non-zero exit), `get_cos_signed_url` falls back to the public URL
obtained by applying the fixed bucket-name-and-region template to the remote
path; the template is the fixed host prefix followed by a slash and the path. -/
theorem c7_signed_url_fallback (env : CosEnv) (path : LC)
    (h : (env.sign path).isOk = false) :
    get_cos_signed_url env path = build_cos_public_url path defaultBucket ∧
    build_cos_public_url path defaultBucket = hostPrefix ++ '/' :: path := by
  refine ⟨?_, rfl⟩
  cases hs : env.sign path with
  | ok out => rw [hs] at h; exact absurd h (by simp [SignOut.isOk])
  | timeout => rw [get_cos_signed_url, hs]
  | err => rw [get_cos_signed_url, hs]
  | missing => rw [get_cos_signed_url, hs]

theorem c7_signed_url_fallback_witness :
    get_cos_signed_url envTimeoutAll "demo_show/a.mp4".data
        = build_cos_public_url "demo_show/a.mp4".data defaultBucket ∧
    build_cos_public_url "demo_show/a.mp4".data defaultBucket
        = hostPrefix ++ '/' :: "demo_show/a.mp4".data :=
  c7_signed_url_fallback envTimeoutAll ("demo_show/a.mp4".data) rfl

/-- C3: with the upload log and the saved URL-mapping file absent, the Resolver's
and the Refresher's `main` terminate via an early clean return with the
filesystem unchanged; the Manifest Builder, by contrast, raises out of `open`
when its benchmark CSV is absent (there is no early return for it). -/
theorem c3_missing_input_handling (env : CosEnv) (fs : FS)
    (hlog : fs UPLOAD_LOG_FILE = none) (hmap : fs VIDEO_URL_MAPPING_FILE = none) :
    replace_main env fs = .ok fs ∧ signed_main env fs = .ok fs ∧
    generate_model_comparison_jsonl none [] = .error () := by
  refine ⟨?_, ?_, rfl⟩
  · have h1 : parse_upload_log fs = [] := by rw [parse_upload_log, hlog]
    rw [replace_main, h1]
    rfl
  · have h1 : extract_cos_paths_fs fs = .ok [] := by rw [extract_cos_paths_fs, hmap]
    rw [signed_main]
    cases hav : env.available with
    | false => rfl
    | true => rw [h1]; rfl

theorem c3_missing_input_witness :
    replace_main envTimeoutAll emptyFS = .ok emptyFS ∧
    signed_main envTimeoutAll emptyFS = .ok emptyFS ∧
    generate_model_comparison_jsonl none [] = .error () :=
  c3_missing_input_handling envTimeoutAll emptyFS rfl rfl

/-- C3 counterexample: the Manifest Builder does not exit early when its required
CSV input is entirely absent; the `open` call raises and the exception propagates
(modelled as `Except.error`). -/
theorem c3_counterexample_builder_raises :
    generate_model_comparison_jsonl none [] = .error () := rfl

/-- C1: on a filesystem holding one manifest from the fixed list, the
Signed-URL Refresher's update pass rewrites the manifest (here replacing the
path `a.mp4` by the mapped URL) yet writes no backup at all: the pre-rewrite
content is saved neither under the Resolver's `.backup` suffix nor under the
`.signed.backup` suffix that `create_backup(jsonl_file + ".signed")` would
produce, because `jsonl_file + ".signed"` names a file that does not exist. -/
theorem c1_refresher_writes_no_backup :
    ((update_jsonl_files_with_signed_urls c1map c1fs).map
      (fun fsx => (fsx demoFile, fsx (demoFile ++ ".backup".data),
                   fsx ((demoFile ++ ".signed".data) ++ ".backup".data)))).toOption
    = some (some "\x7b\"videos\": \x7b\"x\": \"URL\"\x7d\x7d\n".data, none, none) := by
  decide

/-- C2 counterexample: with a mapping that is not replacement-stable (the URL
stored for `a.mp4` has basename `b.mp4`, itself a mapped filename), one update
pass stores `x/b.mp4` and a second pass rewrites it again to `y`, so applying
`update_jsonl_file` twice does not yield the same file content as applying it
once. -/
theorem c2_counterexample_twice_ne_once :
    (((update_jsonl_file c2map c2fs demoFile).map (fun pr => pr.1 demoFile)).toOption)
      ≠ ((((update_jsonl_file c2map c2fs demoFile) >>= fun pr =>
            update_jsonl_file c2map pr.1 demoFile).map (fun pr => pr.1 demoFile)).toOption) := by
  decide

/-- C4 counterexample: caption lookup does not return `""` with a warning on
every unmatched id: a scanned row whose video filename is not numeric makes
`int()` raise, aborting the lookup instead of continuing. -/
theorem c4_counterexample_int_raises :
    get_prompt_from_csv c4csvBad "1".data = .error () := rfl

/-- C8 counterexample: a line that fails to parse as JSON is not written back
verbatim: the update pass writes its stripped form, so a malformed line with
leading whitespace is altered. -/
theorem c8_counterexample_not_verbatim :
    update_jsonl_lines ([] : List (LC × LC)) [" oops".data] = .ok (["oops".data], 0) ∧
    "oops".data ≠ " oops".data := by
  refine ⟨rfl, by decide⟩

/-- C5 counterexample: for a filename with an inner `.mp4` occurrence the code's
global `replace('.mp4', '')` diverges from the documented policy read with
"extension stripped" as removal of the trailing extension: the code takes model
`a` where the documented reading takes `a.mp4`. -/
theorem c5_counterexample_inner_mp4 :
    extract_pair "a.mp4_b.mp4".data ≠ claimPolicyPair "a.mp4_b.mp4".data ∧
    extract_pair "a.mp4_b.mp4".data = some ("a".data, "b".data) := by
  decide

/-- C10 counterexample: a successful signing invocation whose stdout is empty
resolves to the empty string, which is falsy, so `generate_video_url_mapping`
takes its failure branch and drops the `.mp4` filename: the produced key set is
not the set of `.mp4`-suffixed filenames of the input mapping. -/
theorem c10_counterexample_empty_url :
    generate_video_url_mapping envOkEmpty [("a.mp4".data, "p".data)] = [] ∧
    ".mp4".data.isSuffixOf "a.mp4".data = true := by
  decide

theorem mem_splitOnChar {sep : Char} : ∀ {s x : LC}, x ∈ splitOnChar sep s → sep ∉ x := by
  intro s
  induction s with
  | nil =>
    intro x hx
    rw [splitOnChar] at hx
    rcases List.mem_cons.mp hx with rfl | hmem
    · simp
    · cases hmem
  | cons c t ih =>
    intro x hx
    rw [splitOnChar] at hx
    by_cases hc : c = sep
    · rw [if_pos hc] at hx
      rcases List.mem_cons.mp hx with rfl | hmem
      · simp
      · exact ih hmem
    · rw [if_neg hc] at hx
      cases hs : splitOnChar sep t with
      | nil =>
        rw [hs] at hx
        rcases List.mem_cons.mp hx with rfl | hmem
        · intro hin
          rcases List.mem_cons.mp hin with h | h
          · exact hc h.symm
          · cases h
        · cases hmem
      | cons s0 ss =>
        rw [hs] at hx
        rcases List.mem_cons.mp hx with rfl | hmem
        · have h0 : sep ∉ s0 := ih (by rw [hs]; exact List.mem_cons_self _ _)
          intro hin
          rcases List.mem_cons.mp hin with h | h
          · exact hc h.symm
          · exact h0 h
        · exact ih (by rw [hs]; exact List.mem_cons_of_mem _ hmem)

theorem splitOnChar_append_cons {sep : Char} : ∀ {l r : LC}, sep ∉ l →
    splitOnChar sep (l ++ sep :: r) = l :: splitOnChar sep r := by
  intro l
  induction l with
  | nil =>
    intro r _
    rw [List.nil_append, splitOnChar, if_pos rfl]
  | cons c t ih =>
    intro r hn
    have hc : ¬ c = sep := fun h => hn (by rw [h]; exact List.mem_cons_self _ _)
    rw [List.cons_append, splitOnChar, if_neg hc,
      ih (fun h => hn (List.mem_cons_of_mem _ h))]

theorem splitLines_joinLines : ∀ {out : List LC}, (∀ l ∈ out, '\n' ∉ l) →
    splitLines (joinLines out) = out ++ [[]] := by
  intro out
  induction out with
  | nil => intro _; rfl
  | cons l rest ih =>
    intro h
    show splitLines (l ++ '\n' :: joinLines rest) = (l :: rest) ++ [[]]
    rw [splitLines, splitOnChar_append_cons (h l (List.mem_cons_self _ _))]
    rw [show splitOnChar '\n' (joinLines rest) = splitLines (joinLines rest) from rfl]
    rw [ih (fun l' hl' => h l' (List.mem_cons_of_mem _ hl'))]
    rfl

theorem mem_pyStrip {l : LC} {c : Char} (h : c ∈ pyStrip l) : c ∈ l := by
  rw [pyStrip] at h
  have h1 : c ∈ (l.dropWhile pyWsChar).reverse.dropWhile pyWsChar := List.mem_reverse.mp h
  have h2 : c ∈ (l.dropWhile pyWsChar).reverse := (List.dropWhile_sublist _).subset h1
  exact (List.dropWhile_sublist _).subset (List.mem_reverse.mp h2)

theorem escapeChar_no_newline (c : Char) : '\n' ∉ escapeChar c := by
  rw [escapeChar]
  by_cases h1 : c = '"'
  · rw [if_pos h1]; decide
  rw [if_neg h1]
  by_cases h2 : c = '\\'
  · rw [if_pos h2]; decide
  rw [if_neg h2]
  by_cases h3 : c = '\n'
  · rw [if_pos h3]; decide
  rw [if_neg h3]
  intro hin
  rcases List.mem_cons.mp hin with h | h
  · exact h3 h.symm
  · cases h

theorem escape_no_newline : ∀ (s : LC), '\n' ∉ escape s := by
  intro s
  induction s with
  | nil => simp [escape]
  | cons c t ih =>
    rw [escape]
    intro hin
    rcases List.mem_append.mp hin with h | h
    · exact escapeChar_no_newline c h
    · exact ih h

theorem renderInt_no_newline (n : Int) : '\n' ∉ renderInt n := by
  rw [renderInt]
  split
  · intro hin
    rcases List.mem_cons.mp hin with h | h
    · exact absurd h (by decide)
    · exact absurd (natDigits_all_digit _ _ h) (by decide)
  · intro hin
    exact absurd (natDigits_all_digit _ _ hin) (by decide)

theorem renderPrim_no_newline (p : JPrim) : '\n' ∉ renderPrim p := by
  cases p with
  | str s =>
    rw [renderPrim]
    intro hin
    rcases List.mem_cons.mp hin with h | h
    · exact absurd h (by decide)
    · rcases List.mem_append.mp h with h2 | h2
      · exact escape_no_newline s h2
      · rcases List.mem_cons.mp h2 with h3 | h3
        · exact absurd h3 (by decide)
        · cases h3
  | num n => exact renderInt_no_newline n

theorem renderInnerFields_no_newline : ∀ (fs : List (LC × JPrim)), '\n' ∉ renderInnerFields fs := by
  intro fs
  induction fs with
  | nil => simp [renderInnerFields]
  | cons kv t ih =>
    obtain ⟨k, v⟩ := kv
    cases t with
    | nil =>
      rw [renderInnerFields]
      intro hin
      rcases List.mem_append.mp hin with h | h
      · exact renderPrim_no_newline (.str k) h
      · rcases List.mem_cons.mp h with h2 | h2
        · exact absurd h2 (by decide)
        · rcases List.mem_cons.mp h2 with h3 | h3
          · exact absurd h3 (by decide)
          · exact renderPrim_no_newline v h3
    | cons f t' =>
      rw [renderInnerFields]
      intro hin
      rcases List.mem_append.mp hin with h | h
      · rcases List.mem_append.mp h with h2 | h2
        · exact renderPrim_no_newline (.str k) h2
        · rcases List.mem_cons.mp h2 with h3 | h3
          · exact absurd h3 (by decide)
          · rcases List.mem_cons.mp h3 with h4 | h4
            · exact absurd h4 (by decide)
            · exact renderPrim_no_newline v h4
      · rcases List.mem_cons.mp h with h5 | h5
        · exact absurd h5 (by decide)
        · rcases List.mem_cons.mp h5 with h6 | h6
          · exact absurd h6 (by decide)
          · exact ih h6

theorem renderField_no_newline (v : JField) : '\n' ∉ renderField v := by
  cases v with
  | prim p => exact renderPrim_no_newline p
  | obj fs =>
    show '\n' ∉ renderInnerObj fs
    rw [renderInnerObj]
    intro hin
    rcases List.mem_cons.mp hin with h | h
    · exact absurd h (by decide)
    · rcases List.mem_append.mp h with h2 | h2
      · exact renderInnerFields_no_newline fs h2
      · rcases List.mem_cons.mp h2 with h3 | h3
        · exact absurd h3 (by decide)
        · cases h3

theorem renderTopFields_no_newline : ∀ (fs : List (LC × JField)), '\n' ∉ renderTopFields fs := by
  intro fs
  induction fs with
  | nil => simp [renderTopFields]
  | cons kv t ih =>
    obtain ⟨k, v⟩ := kv
    cases t with
    | nil =>
      rw [renderTopFields]
      intro hin
      rcases List.mem_append.mp hin with h | h
      · exact renderPrim_no_newline (.str k) h
      · rcases List.mem_cons.mp h with h2 | h2
        · exact absurd h2 (by decide)
        · rcases List.mem_cons.mp h2 with h3 | h3
          · exact absurd h3 (by decide)
          · exact renderField_no_newline v h3
    | cons f t' =>
      rw [renderTopFields]
      intro hin
      rcases List.mem_append.mp hin with h | h
      · rcases List.mem_append.mp h with h2 | h2
        · exact renderPrim_no_newline (.str k) h2
        · rcases List.mem_cons.mp h2 with h3 | h3
          · exact absurd h3 (by decide)
          · rcases List.mem_cons.mp h3 with h4 | h4
            · exact absurd h4 (by decide)
            · exact renderField_no_newline v h4
      · rcases List.mem_cons.mp h with h5 | h5
        · exact absurd h5 (by decide)
        · rcases List.mem_cons.mp h5 with h6 | h6
          · exact absurd h6 (by decide)
          · exact ih h6

theorem renderEntry_no_newline (e : JEntry) : '\n' ∉ renderEntry e := by
  rw [renderEntry]
  intro hin
  rcases List.mem_cons.mp hin with h | h
  · exact absurd h (by decide)
  · rcases List.mem_append.mp h with h2 | h2
    · exact renderTopFields_no_newline e.fields h2
    · rcases List.mem_cons.mp h2 with h3 | h3
      · exact absurd h3 (by decide)
      · cases h3

theorem update_jsonl_lines_no_newline {m : List (LC × LC)} :
    ∀ {lines out : List LC} {n : Nat}, update_jsonl_lines m lines = .ok (out, n) →
    (∀ l ∈ lines, '\n' ∉ l) → ∀ l ∈ out, '\n' ∉ l := by
  intro lines
  induction lines with
  | nil =>
    intro out n h hin l hl
    injection h with h2
    injection h2 with ha hb
    subst ha
    exact absurd hl (List.not_mem_nil _)
  | cons l0 rest ih =>
    intro out n h hin l hl
    have hin' : ∀ l ∈ rest, '\n' ∉ l := fun l' hl' => hin l' (List.mem_cons_of_mem _ hl')
    rw [update_jsonl_lines] at h
    simp only [] at h
    by_cases hblank : (pyStrip l0).isEmpty
    · rw [if_pos hblank] at h
      exact ih h hin' l hl
    · rw [if_neg hblank] at h
      cases hp : parseEntry (pyStrip l0) with
      | none =>
        rw [hp] at h
        cases hrec : update_jsonl_lines m rest with
        | error e =>
          rw [hrec] at h
          exact Except.noConfusion
            (show (Except.error e : Except Unit (List LC × Nat)) = Except.ok (out, n) from h)
        | ok pr =>
          obtain ⟨out0, n0⟩ := pr
          rw [hrec] at h
          replace h : (Except.ok (pyStrip l0 :: out0, n0) : Except Unit (List LC × Nat))
              = Except.ok (out, n) := h
          injection h with h2
          injection h2 with ha hb
          subst ha
          rcases List.mem_cons.mp hl with rfl | hmem
          · exact fun hc => hin l0 (List.mem_cons_self _ _) (mem_pyStrip hc)
          · exact ih hrec hin' l hmem
      | some e0 =>
        rw [hp] at h
        replace h : (do
            let pr0 ← updateEntry m e0
            let pr ← update_jsonl_lines m rest
            Except.ok (renderEntry pr0.1 :: pr.1, pr.2 + if pr0.2 = true then 1 else 0) :
            Except Unit (List LC × Nat)) = Except.ok (out, n) := h
        cases hu : updateEntry m e0 with
        | error e =>
          rw [hu] at h
          exact Except.noConfusion
            (show (Except.error e : Except Unit (List LC × Nat)) = Except.ok (out, n) from h)
        | ok pr0 =>
          obtain ⟨e0', b0⟩ := pr0
          rw [hu] at h
          cases hrec : update_jsonl_lines m rest with
          | error e =>
            rw [hrec] at h
            exact Except.noConfusion
              (show (Except.error e : Except Unit (List LC × Nat)) = Except.ok (out, n) from h)
          | ok pr =>
            obtain ⟨out0, n0⟩ := pr
            rw [hrec] at h
            replace h : (Except.ok (renderEntry e0' :: out0, n0 + if b0 then 1 else 0) :
                Except Unit (List LC × Nat)) = Except.ok (out, n) := h
            injection h with h2
            injection h2 with ha hb
            subst ha
            rcases List.mem_cons.mp hl with rfl | hmem
            · exact renderEntry_no_newline e0'
            · exact ih hrec hin' l hmem

theorem update_jsonl_lines_append_blank (m : List (LC × LC)) :
    ∀ lines, update_jsonl_lines m (lines ++ [([] : LC)]) = update_jsonl_lines m lines := by
  intro lines
  induction lines with
  | nil => rfl
  | cons l rest ih =>
    rw [show (l :: rest) ++ [([] : LC)] = l :: (rest ++ [[]]) from rfl]
    rw [update_jsonl_lines]
    conv_rhs => rw [update_jsonl_lines]
    rw [ih]

theorem setFS_get (fs : FS) (p : LC) (c : LC) : setFS fs p c p = some c := by
  rw [setFS]
  rw [if_pos rfl]

theorem setFS_setFS (fs : FS) (p : LC) (c c' : LC) :
    setFS (setFS fs p c') p c = setFS fs p c := by
  funext q
  rw [setFS, setFS, setFS]
  by_cases hq : q = p
  · rw [if_pos hq, if_pos hq]
  · rw [if_neg hq, if_neg hq, if_neg hq]

/-- C2: amended — one update pass need not be idempotent for an arbitrary
filename-to-URL mapping (replacement is by current basename match, so a mapped
value whose basename is itself a mapped filename is rewritten again), but for a
replacement-stable mapping — which every mapping actually produced by the
Resolver is, public URLs ending in the original filename and signed URLs ending
in a query string — a second `update_jsonl_file` pass reproduces the same file
contents. -/
theorem c2_second_pass_same_content {m : List (LC × LC)} (H : UrlMapStable m)
    {fs : FS} {f : LC} {fs1 : FS} {n : Nat}
    (h : update_jsonl_file m fs f = .ok (fs1, n)) :
    (update_jsonl_file m fs1 f).map Prod.fst = .ok fs1 := by
  rw [update_jsonl_file] at h
  cases hc : fs f with
  | none =>
    rw [hc] at h
    replace h : (Except.ok (fs, 0) : Except Unit (FS × Nat)) = .ok (fs1, n) := h
    injection h with h2
    injection h2 with ha hb
    subst ha
    rw [update_jsonl_file, hc]
    rfl
  | some content =>
    rw [hc] at h
    replace h : (do
        let pr ← update_jsonl_lines m (splitLines content)
        Except.ok (setFS fs f (joinLines pr.1), pr.2) :
        Except Unit (FS × Nat)) = Except.ok (fs1, n) := h
    cases hu : update_jsonl_lines m (splitLines content) with
    | error e =>
      rw [hu] at h
      exact Except.noConfusion
        (show (Except.error e : Except Unit (FS × Nat)) = Except.ok (fs1, n) from h)
    | ok pr =>
      obtain ⟨out, n0⟩ := pr
      rw [hu] at h
      replace h : (Except.ok (setFS fs f (joinLines out), n0) : Except Unit (FS × Nat))
          = .ok (fs1, n) := h
      injection h with h2
      injection h2 with ha hb
      subst ha
      have hstable : ∀ l ∈ out, LineStable m l := update_jsonl_lines_out H hu
      have hnl : ∀ l ∈ out, '\n' ∉ l :=
        update_jsonl_lines_no_newline hu (fun l hl => mem_splitOnChar hl)
      rw [update_jsonl_file, setFS_get]
      show Except.map Prod.fst (do
          let pr ← update_jsonl_lines m (splitLines (joinLines out))
          Except.ok (setFS (setFS fs f (joinLines out)) f (joinLines pr.1), pr.2))
        = Except.ok (setFS fs f (joinLines out))
      rw [splitLines_joinLines hnl, update_jsonl_lines_append_blank,
        update_jsonl_lines_stable hstable]
      show Except.ok (setFS (setFS fs f (joinLines out)) f (joinLines out))
        = Except.ok (setFS fs f (joinLines out))
      rw [setFS_setFS]

theorem c2_second_pass_witness :
    (update_jsonl_file c2wmap
        (setFS c2fs demoFile
          "\x7b\"videos\": \x7b\"x\": \"https://host/demo/a.mp4\"\x7d\x7d\n".data)
        demoFile).map Prod.fst
      = .ok (setFS c2fs demoFile
          "\x7b\"videos\": \x7b\"x\": \"https://host/demo/a.mp4\"\x7d\x7d\n".data) := by
  refine @c2_second_pass_same_content c2wmap ?_ c2fs demoFile
    (setFS c2fs demoFile
      "\x7b\"videos\": \x7b\"x\": \"https://host/demo/a.mp4\"\x7d\x7d\n".data) 1 ?_
  · intro k v hkv u hu
    rcases List.mem_cons.mp hkv with he | he
    · have hk : k = "a.mp4".data := congrArg Prod.fst he
      have hv : v = "https://host/demo/a.mp4".data := congrArg Prod.snd he
      subst hk
      subst hv
      rw [show basenameLC "https://host/demo/a.mp4".data = "a.mp4".data from rfl] at hu
      rw [show List.lookup "a.mp4".data c2wmap
          = some "https://host/demo/a.mp4".data from rfl] at hu
      exact (Option.some.injEq _ _ ▸ hu).symm ▸ rfl
    · exact absurd he (List.not_mem_nil _)
  · rfl

/-- C8: amended — each nonblank line that fails to parse as JSON is written back
in stripped form (the pass strips every line before parsing, so leading or
trailing whitespace is not preserved verbatim), and the reported per-file count
excludes such lines: it counts exactly the lines that parse and in which some
`videos` path has a mapped basename. -/
theorem c8_malformed_line_handling {m : List (LC × LC)} {lines out : List LC} {n : Nat}
    (h : update_jsonl_lines m lines = .ok (out, n)) :
    ((lines.map pyStrip).filter (fun t => !t.isEmpty && (parseEntry t).isNone)) ⊆ out ∧
    n = lines.countP (lineHit m) := by
  refine ⟨?_, update_jsonl_lines_count h⟩
  intro x hx
  rw [List.mem_filter] at hx
  obtain ⟨hmem, hcond⟩ := hx
  rw [List.mem_map] at hmem
  obtain ⟨l, hl, rfl⟩ := hmem
  rw [Bool.and_eq_true] at hcond
  obtain ⟨hne, hnone⟩ := hcond
  refine update_jsonl_lines_raw_mem h l hl ?_ ?_
  · intro he
    rw [he] at hne
    exact Bool.noConfusion hne
  · exact Option.isNone_iff_eq_none.mp hnone

theorem c8_malformed_line_witness :
    (([" oops".data].map pyStrip).filter
        (fun t => !t.isEmpty && (parseEntry t).isNone)) ⊆ ["oops".data] ∧
    (0 : Nat) = [" oops".data].countP (lineHit ([] : List (LC × LC))) :=
  c8_malformed_line_handling (by rfl)

theorem get_prompt_go_characterization {vid : LC} {v : Int} (hv : pyIntStr? vid = some v) :
    ∀ rows : List CsvRow,
    (∀ row ∈ rows, row.video.isEmpty = false →
      (pyIntStr? (stripMp4All ((splitOnChar '/' row.video).getLastD []))).isSome = true) →
    get_prompt_go vid rows =
      .ok (((rows.find? fun row => !row.video.isEmpty &&
          (pyIntStr? (stripMp4All ((splitOnChar '/' row.video).getLastD [])) == some v)).map
        CsvRow.soundCaption).getD []) := by
  intro rows
  induction rows with
  | nil => intro _; rfl
  | cons row rest ih =>
    intro hr
    have hrest := fun r h' => hr r (List.mem_cons_of_mem _ h')
    rw [get_prompt_go]
    by_cases he : row.video.isEmpty = true
    · rw [if_pos he]
      rw [List.find?_cons_of_neg _ (by simp [he])]
      exact ih hrest
    · rw [if_neg he]
      simp only []
      have he' : row.video.isEmpty = false := Bool.eq_false_iff.mpr he
      have hs := hr row (List.mem_cons_self _ _) he'
      cases hn : pyIntStr? (stripMp4All ((splitOnChar '/' row.video).getLastD [])) with
      | none =>
        rw [hn] at hs
        exact Bool.noConfusion hs
      | some nn =>
        rw [hv]
        show (if nn = v then Except.ok row.soundCaption else get_prompt_go vid rest)
          = Except.ok ((((row :: rest).find? fun r => !r.video.isEmpty &&
              (pyIntStr? (stripMp4All ((splitOnChar '/' r.video).getLastD [])) == some v)).map
            CsvRow.soundCaption).getD [])
        by_cases heq : nn = v
        · subst heq
          rw [if_pos rfl]
          rw [List.find?_cons_of_pos _ (by rw [he', hn]; simp)]
          rfl
        · rw [if_neg heq]
          rw [List.find?_cons_of_neg _ (by rw [he', hn]; simp [heq])]
          exact ih hrest

/-- C4: amended — caption lookup scans rows from the fixed offset (index 64) on,
skipping rows with an empty video path; provided the id and every scanned
nonempty filename (extension stripped) parse as integers, the first row whose
filename compares numerically equal to the id wins its `SoundCaption`, and when
no row matches the result is the empty string with a non-fatal printed warning.
A non-numeric filename or id instead raises `ValueError` out of `int()`. -/
theorem c4_caption_lookup {csv_data : List CsvRow} {vid : LC} {v : Int}
    (hv : pyIntStr? vid = some v)
    (hrows : ∀ row ∈ csv_data.drop 64, row.video.isEmpty = false →
      (pyIntStr? (stripMp4All ((splitOnChar '/' row.video).getLastD []))).isSome = true) :
    get_prompt_from_csv csv_data vid =
      .ok ((((csv_data.drop 64).find? fun row => !row.video.isEmpty &&
          (pyIntStr? (stripMp4All ((splitOnChar '/' row.video).getLastD [])) == some v)).map
        CsvRow.soundCaption).getD []) := by
  rw [get_prompt_from_csv]
  exact get_prompt_go_characterization hv _ hrows

theorem c4_caption_lookup_witness :
    get_prompt_from_csv c4csvGood "5".data =
      .ok ((((c4csvGood.drop 64).find? fun row => !row.video.isEmpty &&
          (pyIntStr? (stripMp4All ((splitOnChar '/' row.video).getLastD []))
            == some (5 : Int))).map
        CsvRow.soundCaption).getD []) :=
  c4_caption_lookup (by decide) (by decide)

theorem mem_replaceAllGo {pat : LC} {c : Char} :
    ∀ {f : Nat} {s : LC}, c ∈ replaceAllGo pat [] f s → c ∈ s := by
  intro f
  induction f with
  | zero =>
    intro s h
    cases s with
    | nil => exact absurd h (List.not_mem_nil _)
    | cons c' t => exact h
  | succ f ih =>
    intro s h
    cases s with
    | nil => exact absurd h (List.not_mem_nil _)
    | cons c' t =>
      rw [replaceAllGo] at h
      by_cases hp : pat.isPrefixOf (c' :: t) = true
      · rw [if_pos hp, List.nil_append] at h
        exact List.mem_of_mem_drop (ih h)
      · rw [if_neg hp] at h
        rcases List.mem_cons.mp h with rfl | hmem
        · exact List.mem_cons_self _ _
        · exact List.mem_cons_of_mem _ (ih hmem)

theorem mem_replaceAllGo_of_not_mem {pat : LC} {c : Char} (hc : c ∉ pat) :
    ∀ {f : Nat} {s : LC}, c ∈ s → c ∈ replaceAllGo pat [] f s := by
  intro f
  induction f with
  | zero =>
    intro s h
    cases s with
    | nil => exact absurd h (List.not_mem_nil _)
    | cons c' t => exact h
  | succ f ih =>
    intro s h
    cases s with
    | nil => exact absurd h (List.not_mem_nil _)
    | cons c' t =>
      rw [replaceAllGo]
      by_cases hp : pat.isPrefixOf (c' :: t) = true
      · rw [if_pos hp, List.nil_append]
        obtain ⟨u, hu⟩ := List.isPrefixOf_iff_prefix.mp hp
        have hdrop : (c' :: t).drop pat.length = u := by
          rw [← hu, List.drop_left]
        rw [hdrop]
        refine ih ?_
        rw [← hu] at h
        rcases List.mem_append.mp h with hm | hm
        · exact absurd hm hc
        · exact hm
      · rw [if_neg hp]
        rcases List.mem_cons.mp h with rfl | hmem
        · exact List.mem_cons_self _ _
        · exact List.mem_cons_of_mem _ (ih hmem)

theorem mem_stripMp4All {c : Char} {s : LC} (h : c ∈ stripMp4All s) : c ∈ s := by
  rw [stripMp4All, replaceAll] at h
  rw [if_neg (by decide)] at h
  exact mem_replaceAllGo h

theorem underscore_mem_stripMp4All {s : LC} (h : '_' ∈ s) : '_' ∈ stripMp4All s := by
  rw [stripMp4All, replaceAll, if_neg (by decide)]
  exact mem_replaceAllGo_of_not_mem (by decide) h

theorem containsChar_of_mem {c : Char} {l : LC} (h : c ∈ l) : l.contains c = true :=
  List.elem_iff.mpr h

theorem mem_of_containsChar {c : Char} {l : LC} (h : l.contains c = true) : c ∈ l :=
  List.elem_iff.mp h

theorem mem_of_isPrefixOf {p s : LC} {c : Char} (hp : p.isPrefixOf s = true) (h : c ∈ p) :
    c ∈ s := by
  obtain ⟨u, hu⟩ := List.isPrefixOf_iff_prefix.mp hp
  rw [← hu]
  exact List.mem_append_left _ h

theorem splitOnChar_ne_nil {sep : Char} : ∀ (s : LC), splitOnChar sep s ≠ [] := by
  intro s
  cases s with
  | nil => rw [splitOnChar]; exact List.cons_ne_nil _ _
  | cons c t =>
    rw [splitOnChar]
    by_cases hc : c = sep
    · rw [if_pos hc]; exact List.cons_ne_nil _ _
    · rw [if_neg hc]
      cases hs : splitOnChar sep t with
      | nil => exact List.cons_ne_nil _ _
      | cons s0 ss => exact List.cons_ne_nil _ _

theorem splitOnChar_length_iff {sep : Char} :
    ∀ {s : LC}, 2 ≤ (splitOnChar sep s).length ↔ sep ∈ s := by
  intro s
  induction s with
  | nil =>
    rw [splitOnChar]
    constructor
    · intro h; exact absurd h (by decide)
    · intro h; exact absurd h (List.not_mem_nil _)
  | cons c t ih =>
    rw [splitOnChar]
    by_cases hc : c = sep
    · rw [if_pos hc]
      constructor
      · intro _; rw [hc]; exact List.mem_cons_self _ _
      · intro _
        have h1 : splitOnChar sep t ≠ [] := splitOnChar_ne_nil t
        have h2 : 1 ≤ (splitOnChar sep t).length := by
          cases hs : splitOnChar sep t with
          | nil => exact absurd hs h1
          | cons s0 ss => rw [List.length_cons]; omega
        rw [List.length_cons]
        omega
    · rw [if_neg hc]
      have hmem : sep ∈ c :: t ↔ sep ∈ t := by
        constructor
        · intro h
          rcases List.mem_cons.mp h with h2 | h2
          · exact absurd h2.symm hc
          · exact h2
        · exact List.mem_cons_of_mem _
      cases hs : splitOnChar sep t with
      | nil => exact absurd hs (splitOnChar_ne_nil t)
      | cons s0 ss =>
        rw [hs] at ih
        rw [hmem, ← ih]
        rw [List.length_cons, List.length_cons]

/-- C5: amended — the extracted `(model, id)` pair is a deterministic function of
the filename matching the documented policy, with "extension stripped" read as
the code's actual global replacement: every occurrence of the literal `.mp4`
(and, for the proposed model, of its marker) is deleted, not only a trailing
extension.  In the spec's bullet order: digit-initial names containing a hyphen
contribute nothing; an `Ours__128d_200k__` prefix yields `HIFI-Foley` with the
stripped remainder as id; a `V_AURA_` prefix yields `V_AURA` with the last
underscore token of the stripped name as id; any other name whose stripped form
contains an underscore yields first token as model and last as id; all remaining
names are silently skipped. -/
theorem c5_filename_policy (filename : LC) :
    extract_pair filename = specPolicyPair filename := by
  cases filename with
  | nil => rfl
  | cons c0 rest =>
    rw [extract_pair, specPolicyPair]
    by_cases hd : (c0.isDigit && (c0 :: rest).contains '-') = true
    · rw [if_pos hd, if_pos hd]
    rw [if_neg hd, if_neg hd]
    by_cases hours : oursMarker.isPrefixOf (c0 :: rest) = true
    · have hc : (c0 :: rest).contains '_' = true :=
        containsChar_of_mem (mem_of_isPrefixOf hours (by decide))
      rw [if_pos hc, if_pos hours, if_pos hours]
    · by_cases hvaura : vauraMarker.isPrefixOf (c0 :: rest) = true
      · have hm : '_' ∈ (c0 :: rest) := mem_of_isPrefixOf hvaura (by decide)
        have hc : (c0 :: rest).contains '_' = true := containsChar_of_mem hm
        have hlen : 2 ≤ (splitOnChar '_' (stripMp4All (c0 :: rest))).length :=
          splitOnChar_length_iff.mpr (underscore_mem_stripMp4All hm)
        rw [if_pos hc, if_neg hours, if_neg hours, if_pos hvaura]
        simp only []
        rw [if_pos hlen, if_pos hvaura]
      · by_cases hsc : (stripMp4All (c0 :: rest)).contains '_' = true
        · have hm : '_' ∈ (c0 :: rest) := mem_stripMp4All (mem_of_containsChar hsc)
          have hc : (c0 :: rest).contains '_' = true := containsChar_of_mem hm
          have hlen : 2 ≤ (splitOnChar '_' (stripMp4All (c0 :: rest))).length :=
            splitOnChar_length_iff.mpr (mem_of_containsChar hsc)
          rw [if_pos hc, if_neg hours, if_neg hours, if_neg hvaura, if_pos hsc]
          simp only []
          rw [if_pos hlen, if_neg hvaura]
        · rw [if_neg hours, if_neg hvaura, if_neg hsc]
          by_cases hc : (c0 :: rest).contains '_' = true
          · rw [if_pos hc]
            simp only []
            have hlen : ¬ 2 ≤ (splitOnChar '_' (stripMp4All (c0 :: rest))).length := by
              intro hl
              exact hsc (containsChar_of_mem (splitOnChar_length_iff.mp hl))
            rw [if_neg hours, if_neg hlen]
          · rw [if_neg hc, if_neg hours]

theorem idLe_trans (a b c : LC) (h1 : idLe a b = true) (h2 : idLe b c = true) :
    idLe a c = true := by
  rw [idLe] at h1 h2 ⊢
  by_cases ha : pyIsDigit a = true
  · rw [if_pos ha] at h1 ⊢
    by_cases hc : pyIsDigit c = true
    · rw [if_pos hc] at h2 ⊢
      by_cases hb : pyIsDigit b = true
      · rw [if_pos hb] at h1 h2
        replace h1 : decide (digitsToNat 0 a ≤ digitsToNat 0 b) = true := h1
        replace h2 : decide (digitsToNat 0 b ≤ digitsToNat 0 c) = true := h2
        show decide (digitsToNat 0 a ≤ digitsToNat 0 c) = true
        rw [decide_eq_true_eq] at h1 h2 ⊢
        omega
      · rw [if_neg hb] at h2
        replace h2 : (false : Bool) = true := h2
        exact Bool.noConfusion h2
    · rw [if_neg hc]
  · rw [if_neg ha] at h1 ⊢
    by_cases hb : pyIsDigit b = true
    · rw [if_pos hb] at h1
      replace h1 : (false : Bool) = true := h1
      exact Bool.noConfusion h1
    · rw [if_neg hb] at h2
      by_cases hc : pyIsDigit c = true
      · rw [if_pos hc] at h2
        replace h2 : (false : Bool) = true := h2
        exact Bool.noConfusion h2
      · rw [if_neg hc]

theorem idLe_total (a b : LC) : (idLe a b || idLe b a) = true := by
  rw [idLe, idLe]
  by_cases ha : pyIsDigit a = true
  · by_cases hb : pyIsDigit b = true
    · rw [if_pos ha, if_pos hb]
      show (decide (digitsToNat 0 a ≤ digitsToNat 0 b)
          || decide (digitsToNat 0 b ≤ digitsToNat 0 a)) = true
      rcases Nat.le_total (digitsToNat 0 a) (digitsToNat 0 b) with h | h
      · rw [decide_eq_true h]
        rfl
      · rw [decide_eq_true h, Bool.or_true]
    · rw [if_pos ha, if_neg hb]
      rfl
  · by_cases hb : pyIsDigit b = true
    · rw [if_neg ha, if_pos hb]
      rfl
    · rw [if_neg ha, if_neg hb]
      rfl

theorem buildEntries_ok {csv_data : List CsvRow} {groups : List (LC × List (LC × LC))} :
    ∀ {idx : Nat} {ids : List LC} {es : List CmpEntry},
    buildEntries csv_data groups idx ids = .ok es →
    es.map CmpEntry.video_id = ids ∧
    es.map CmpEntry.sequence_id = List.range' (idx + 1) es.length := by
  intro idx ids
  induction ids generalizing idx with
  | nil =>
    intro es h
    replace h : (Except.ok [] : Except Unit (List CmpEntry)) = .ok es := h
    injection h with h2
    subst h2
    exact ⟨rfl, rfl⟩
  | cons vid rest ih =>
    intro es h
    rw [buildEntries] at h
    cases hp : get_prompt_from_csv csv_data vid with
    | error e =>
      rw [hp] at h
      exact Except.noConfusion
        (show (Except.error e : Except Unit (List CmpEntry)) = Except.ok es from h)
    | ok prompt =>
      rw [hp] at h
      cases hr : buildEntries csv_data groups (idx + 1) rest with
      | error e =>
        rw [hr] at h
        exact Except.noConfusion
          (show (Except.error e : Except Unit (List CmpEntry)) = Except.ok es from h)
      | ok es' =>
        rw [hr] at h
        replace h : (Except.ok (⟨idx + 1, vid, prompt,
            ((List.lookup vid groups).getD []).foldl
              (fun acc mv => insertAssoc acc (mapModelKey mv.1) mv.2) []⟩ :: es') :
            Except Unit (List CmpEntry)) = .ok es := h
        injection h with h2
        subst h2
        obtain ⟨ih1, ih2⟩ := ih hr
        constructor
        · rw [List.map_cons, ih1]
        · rw [List.map_cons, ih2, List.length_cons, List.range'_succ]

/-- C6: amended — the Manifest Builder's entries are ordered by the code's sort
key, under which only nonempty all-digit ids compare by numeric value and every
other id (including negative numerals such as "-3", which `int()` accepts but
`isdigit()` rejects) sorts as infinity, i.e. after all digit-string ids;
`sequence_id` is the 1-based position in that order. -/
theorem c6_output_ordering {csv : List CsvRow} {files : List LC} {es : List CmpEntry}
    (h : generate_model_comparison_jsonl (some csv) files = .ok es) :
    (es.map CmpEntry.video_id).Pairwise (fun a b => idLe a b = true) ∧
    es.map CmpEntry.sequence_id = List.range' 1 es.length := by
  rw [generate_model_comparison_jsonl] at h
  replace h : buildEntries csv (extract_video_ids_and_models files) 0
      (((extract_video_ids_and_models files).map Prod.fst).mergeSort idLe) = .ok es := h
  obtain ⟨h1, h2⟩ := buildEntries_ok h
  constructor
  · rw [h1]
    exact List.sorted_mergeSort idLe_trans idLe_total _
  · simpa using h2

theorem c6_output_ordering_witness :
    (([⟨1, "2".data, [], [("b".data, "videos/demo_show/b_2.mp4".data)]⟩] :
        List CmpEntry).map CmpEntry.video_id).Pairwise (fun a b => idLe a b = true) ∧
    ([⟨1, "2".data, [], [("b".data, "videos/demo_show/b_2.mp4".data)]⟩] :
        List CmpEntry).map CmpEntry.sequence_id
      = List.range' 1 ([⟨1, "2".data, [], [("b".data,
          "videos/demo_show/b_2.mp4".data)]⟩] : List CmpEntry).length :=
  c6_output_ordering (by
    show buildEntries [] (extract_video_ids_and_models ["b_2.mp4".data]) 0
        (((extract_video_ids_and_models ["b_2.mp4".data]).map Prod.fst).mergeSort idLe)
      = _
    rw [show ((extract_video_ids_and_models ["b_2.mp4".data]).map Prod.fst)
        = ["2".data] from rfl]
    rw [List.mergeSort_singleton]
    rfl)

/-- C6 counterexample: the ids "2" and "-3" both parse as integers, and -3 < 2,
yet the builder emits "2" first with sequence ids 1, 2: the sort key uses
`isdigit()`, which rejects "-3", so "-3" sorts as infinity rather than by its
numeric value — the claimed ascending-numeric order does not hold. -/
theorem c6_counterexample_negative_id :
    (generate_model_comparison_jsonl (some []) ["a_-3.mp4".data, "b_2.mp4".data]).map
        (fun es => es.map fun e => (e.sequence_id, e.video_id))
      = .ok [(1, "2".data), (2, "-3".data)] ∧
    pyIntStr? "-3".data = some (-3) ∧ pyIntStr? "2".data = some 2 ∧ ((-3 : Int) < 2) := by
  refine ⟨?_, by decide, by decide, by decide⟩
  have hms : List.mergeSort ["-3".data, "2".data] idLe = ["2".data, "-3".data] := by
    simp [List.mergeSort, List.merge]
    decide
  rw [show (generate_model_comparison_jsonl (some []) ["a_-3.mp4".data, "b_2.mp4".data])
      = buildEntries [] (extract_video_ids_and_models ["a_-3.mp4".data, "b_2.mp4".data]) 0
        (((extract_video_ids_and_models ["a_-3.mp4".data, "b_2.mp4".data]).map
          Prod.fst).mergeSort idLe)
      from rfl]
  rw [show ((extract_video_ids_and_models ["a_-3.mp4".data, "b_2.mp4".data]).map Prod.fst)
      = ["-3".data, "2".data] from rfl]
  rw [hms]
  rfl

theorem isPrefixOf_append_self (pat rest : LC) : pat.isPrefixOf (pat ++ rest) = true :=
  List.isPrefixOf_iff_prefix.mpr ⟨rest, rfl⟩

theorem afterFirst_cons_of_not_head {pat : LC} {c : Char} {t : LC}
    (h : pat.isPrefixOf (c :: t) = false) :
    afterFirst pat (c :: t) = afterFirst pat t := by
  rw [afterFirst, afterFirst, splitFirst.eq_def, if_neg (by rw [h]; decide)]
  show ((splitFirst pat t).map fun p => (c :: p.1, p.2)).map Prod.snd
      = (splitFirst pat t).map Prod.snd
  cases hsp : splitFirst pat t with
  | none => rfl
  | some p => rfl

theorem afterFirst_no_early {pat : LC} :
    ∀ {pre rest : LC},
    (∀ pre2 ∈ pre.tails, pre2 ≠ [] → (pre2 ++ pat).take pat.length ≠ pat) →
    afterFirst pat (pre ++ (pat ++ rest)) = some rest := by
  intro pre
  induction pre with
  | nil =>
    intro rest _
    rw [List.nil_append, afterFirst, splitFirst.eq_def,
      if_pos (isPrefixOf_append_self pat rest)]
    rw [Option.map_some']
    rw [List.drop_left]
  | cons c pre' ih =>
    intro rest h
    rw [List.cons_append]
    have hnp : pat.isPrefixOf (c :: (pre' ++ (pat ++ rest))) = false := by
      by_cases hp : pat.isPrefixOf (c :: (pre' ++ (pat ++ rest))) = true
      · exfalso
        obtain ⟨u, hu⟩ := List.isPrefixOf_iff_prefix.mp hp
        have htake : (c :: (pre' ++ (pat ++ rest))).take pat.length = pat := by
          rw [← hu, List.take_left]
        have hlen : pat.length ≤ ((c :: pre') ++ pat).length := by
          rw [List.length_append]
          omega
        have heq : (c :: (pre' ++ (pat ++ rest))) = ((c :: pre') ++ pat) ++ rest := by
          simp [List.append_assoc]
        rw [heq, List.take_append_of_le_length hlen] at htake
        exact h (c :: pre') ((List.mem_tails _ _).mpr (List.suffix_refl _))
          (List.cons_ne_nil _ _) htake
      · exact Bool.eq_false_iff.mpr hp
    rw [afterFirst_cons_of_not_head hnp]
    refine ih ?_
    intro pre2 hp2 hne
    exact h pre2 (by rw [List.tails_cons]; exact List.mem_cons_of_mem _ hp2) hne

theorem extract_cos_paths_eq_filterMap {m : List (LC × LC)}
    (hnd : (m.map Prod.fst).Nodup) :
    extract_cos_paths_from_mapping m
      = m.filterMap (fun kv => (afterFirst cosMarker kv.2).map
          (fun r => (kv.1, cosMarkerDir ++ r))) := by
  rw [extract_cos_paths_from_mapping]
  suffices haux : ∀ (l : List (LC × LC)) (acc : List (LC × LC)),
      (acc.map Prod.fst ++ l.map Prod.fst).Nodup →
      l.foldl (fun acc kv =>
        match afterFirst cosMarker kv.2 with
        | some rest => insertAssoc acc kv.1 (cosMarkerDir ++ rest)
        | none => acc) acc
      = acc ++ l.filterMap (fun kv => (afterFirst cosMarker kv.2).map
          (fun r => (kv.1, cosMarkerDir ++ r))) by
    have hres := haux m [] (by simpa using hnd)
    simpa using hres
  intro l
  induction l with
  | nil =>
    intro acc _
    simp
  | cons kv t ih =>
    intro acc hnd2
    obtain ⟨k, v⟩ := kv
    rw [List.map_cons] at hnd2
    have hmid := List.nodup_middle.mp hnd2
    have hcons := List.nodup_cons.mp hmid
    have hk : k ∉ acc.map Prod.fst := fun hm => hcons.1 (List.mem_append_left _ hm)
    cases ha : afterFirst cosMarker v with
    | none =>
      rw [List.foldl_cons, List.filterMap_cons]
      simp only [ha]
      exact ih acc hcons.2
    | some r =>
      rw [List.foldl_cons, List.filterMap_cons]
      simp only [ha, Option.map_some']
      rw [insertAssoc_not_mem acc k _ hk]
      rw [ih (acc ++ [(k, cosMarkerDir ++ r)]) (by
        rw [List.map_append]
        rw [List.append_assoc]
        exact hnd2)]
      rw [List.append_assoc]
      rfl

/-- C9: each stored URL that contains the fixed marker `/hunyuanvideo-foley_demo/`
contributes the remote path formed by the marker's directory name
(`hunyuanvideo-foley_demo/`) prefixed to everything after the marker's first
occurrence, and each URL lacking the marker is silently excluded; in particular,
extraction applied to a public URL built from a marker-prefixed path recovers
exactly that path, since the host part of the URL template contains no earlier
occurrence of the marker. -/
theorem c9_path_extraction (p : LC) {m : List (LC × LC)}
    (hnd : (m.map Prod.fst).Nodup) :
    extract_cos_paths_from_mapping m
      = m.filterMap (fun kv => (afterFirst cosMarker kv.2).map
          (fun r => (kv.1, cosMarkerDir ++ r))) ∧
    afterFirst cosMarker (build_cos_public_url (cosMarkerDir ++ p) defaultBucket)
      = some p := by
  refine ⟨extract_cos_paths_eq_filterMap hnd, ?_⟩
  have heq : build_cos_public_url (cosMarkerDir ++ p) defaultBucket
      = hostPrefix ++ (cosMarker ++ p) := rfl
  rw [heq]
  exact afterFirst_no_early (by decide)

theorem c9_path_extraction_witness :
    (extract_cos_paths_from_mapping c9mapping
      = c9mapping.filterMap (fun kv => (afterFirst cosMarker kv.2).map
          (fun r => (kv.1, cosMarkerDir ++ r)))) ∧
    afterFirst cosMarker
        (build_cos_public_url (cosMarkerDir ++ "demo_show/a.mp4".data) defaultBucket)
      = some "demo_show/a.mp4".data :=
  c9_path_extraction ("demo_show/a.mp4".data) (by decide)

theorem generate_video_url_mapping_eq_filter {env : CosEnv} :
    ∀ {fm : List (LC × LC)}, (fm.map Prod.fst).Nodup →
    (∀ kv ∈ fm, (get_cos_signed_url env kv.2).isEmpty = false) →
    generate_video_url_mapping env fm
      = (fm.filter (fun kv => ".mp4".data.isSuffixOf kv.1)).map
          (fun kv => (kv.1, get_cos_signed_url env kv.2)) := by
  suffices haux : ∀ (l : List (LC × LC)) (acc : List (LC × LC)),
      (acc.map Prod.fst ++ l.map Prod.fst).Nodup →
      (∀ kv ∈ l, (get_cos_signed_url env kv.2).isEmpty = false) →
      l.foldl (fun acc kv =>
        if ".mp4".data.isSuffixOf kv.1 then
          let signed_url := get_cos_signed_url env kv.2
          if signed_url.isEmpty then acc else insertAssoc acc kv.1 signed_url
        else acc) acc
      = acc ++ (l.filter (fun kv => ".mp4".data.isSuffixOf kv.1)).map
          (fun kv => (kv.1, get_cos_signed_url env kv.2)) by
    intro fm hnd hne
    rw [generate_video_url_mapping]
    have hres := haux fm [] (by simpa using hnd) hne
    simpa using hres
  intro l
  induction l with
  | nil =>
    intro acc _ _
    simp
  | cons kv t ih =>
    intro acc hnd2 hne
    obtain ⟨k, v⟩ := kv
    rw [List.map_cons] at hnd2
    have hmid := List.nodup_middle.mp hnd2
    have hcons := List.nodup_cons.mp hmid
    have hk : k ∉ acc.map Prod.fst := fun hm => hcons.1 (List.mem_append_left _ hm)
    have hnet : ∀ kv ∈ t, (get_cos_signed_url env kv.2).isEmpty = false :=
      fun kv hm => hne kv (List.mem_cons_of_mem _ hm)
    by_cases hs : ".mp4".data.isSuffixOf k = true
    · have hne0 : (get_cos_signed_url env v).isEmpty = false :=
        hne (k, v) (List.mem_cons_self _ _)
      rw [List.foldl_cons, List.filter_cons_of_pos (by exact hs)]
      simp only []
      rw [if_pos hs, if_neg (by rw [hne0]; decide)]
      rw [insertAssoc_not_mem acc k _ hk]
      rw [ih (acc ++ [(k, get_cos_signed_url env v)]) (by
        rw [List.map_append, List.append_assoc]
        exact hnd2) hnet]
      rw [List.append_assoc]
      rfl
    · rw [List.foldl_cons, List.filter_cons_of_neg (by exact hs)]
      simp only []
      rw [if_neg hs]
      exact ih acc hcons.2 hnet

/-- C10: in the Resolver `get_cos_signed_url` is indeed total — it always
returns a string URL (the signing stdout or the constructed public URL), never
a failure value — but the failure branch of `generate_video_url_mapping` is
still reachable: a successful signing call with empty stdout resolves to the
empty string, which is falsy.  Amended: the produced mapping is exactly the
`.mp4`-suffixed entries resolved through `get_cos_signed_url`, and its key set
is exactly the `.mp4`-suffixed filenames, under the assumption that every
resolved URL is nonempty (which holds in particular whenever signing fails,
the public-URL fallback being nonempty). -/
theorem c10_mapping_keys {env : CosEnv} {fm : List (LC × LC)}
    (hnd : (fm.map Prod.fst).Nodup)
    (hne : ∀ kv ∈ fm, (get_cos_signed_url env kv.2).isEmpty = false) :
    generate_video_url_mapping env fm
      = (fm.filter (fun kv => ".mp4".data.isSuffixOf kv.1)).map
          (fun kv => (kv.1, get_cos_signed_url env kv.2)) ∧
    (generate_video_url_mapping env fm).map Prod.fst
      = (fm.map Prod.fst).filter (fun k => ".mp4".data.isSuffixOf k) := by
  have h1 := generate_video_url_mapping_eq_filter hnd hne
  refine ⟨h1, ?_⟩
  rw [h1, List.map_map]
  exact (@List.filter_map (LC × LC) LC (fun k => ".mp4".data.isSuffixOf k)
    Prod.fst fm).symm

theorem c10_mapping_keys_witness :
    (generate_video_url_mapping envTimeoutAll c10fm
      = (c10fm.filter (fun kv => ".mp4".data.isSuffixOf kv.1)).map
          (fun kv => (kv.1, get_cos_signed_url envTimeoutAll kv.2))) ∧
    (generate_video_url_mapping envTimeoutAll c10fm).map Prod.fst
      = (c10fm.map Prod.fst).filter (fun k => ".mp4".data.isSuffixOf k) :=
  c10_mapping_keys (by decide) (by decide)
